import Mathlib

/-
Verification of the crewplots in-memory key-value store (RESP protocol servers).

The development shallowly embeds the C sources `production-redis.c` and
`mini-redis.c`:
  * byte buffers and C strings become `List Char`,
  * the global `store` array becomes a `List KeyValue` threaded through the
    operations (the fixed char-array field sizes are not modelled; every
    argument reaching the store through the RESP decoder is shorter than the
    field sizes, so no `strncpy` truncation is reachable from the wire),
  * `time_t` timestamps and C `int` values become `Int`,
  * functions that mutate the store in place (lazy expiry inside `find_key`)
    return the updated store alongside their C return value.

All definitions are executable and structurally recursive so that concrete
runs evaluate by `decide` / `simp`.
-/

/-! ### Character helpers (ctype / atoi model) -/

/-- ASCII decimal digit test, as used by C `atoi` when scanning digits. -/
def isDigitC (c : Char) : Bool := decide ('0' ≤ c) && decide (c ≤ '9')

/-- C `isspace` for the default locale (the characters `atoi` skips). -/
def isSpaceC (c : Char) : Bool :=
  c = ' ' || c = '\t' || c = '\n' || c = '\x0b' || c = '\x0c' || c = '\r'

/-- C `toupper` restricted to ASCII, as applied bytewise by the dispatchers. -/
def toUpperC (c : Char) : Char :=
  if 'a' ≤ c ∧ c ≤ 'z' then Char.ofNat (c.toNat - 32) else c

/-- The decimal digit character for `d` (callers only use `d < 10`). -/
def digitChar (d : Nat) : Char :=
  match d with
  | 0 => '0' | 1 => '1' | 2 => '2' | 3 => '3' | 4 => '4'
  | 5 => '5' | 6 => '6' | 7 => '7' | 8 => '8' | _ => '9'

theorem digitChar_isDigit {d : Nat} (h : d < 10) : isDigitC (digitChar d) = true := by
  interval_cases d <;> decide

theorem digitChar_not_space {d : Nat} (h : d < 10) : isSpaceC (digitChar d) = false := by
  interval_cases d <;> decide

theorem digitChar_ne_minus {d : Nat} (h : d < 10) : digitChar d ≠ '-' := by
  interval_cases d <;> decide

theorem digitChar_ne_plus {d : Nat} (h : d < 10) : digitChar d ≠ '+' := by
  interval_cases d <;> decide

theorem digitChar_ne_cr {d : Nat} (h : d < 10) : digitChar d ≠ '\r' := by
  interval_cases d <;> decide

theorem digitChar_val {d : Nat} (h : d < 10) : (digitChar d).toNat - 48 = d := by
  interval_cases d <;> decide

/-! ### Decimal rendering (`snprintf "%d"` on nonnegative values)

`natToChars n` is the usual most-significant-first decimal rendering.  It is
implemented with explicit fuel so that it is structurally recursive; `n + 1`
units of fuel always suffice since the argument is divided by ten each step. -/

def natToCharsFuel : Nat → Nat → List Char
  | 0, _ => []
  | fuel + 1, n =>
      if n < 10 then [digitChar n]
      else natToCharsFuel fuel (n / 10) ++ [digitChar (n % 10)]

def natToChars (n : Nat) : List Char := natToCharsFuel (n + 1) n

theorem natToCharsFuel_ne_nil {fuel n : Nat} (h : n < fuel) :
    natToCharsFuel fuel n ≠ [] := by
  induction fuel generalizing n with
  | zero => omega
  | succ f _ih =>
      show (if n < 10 then [digitChar n]
            else natToCharsFuel f (n / 10) ++ [digitChar (n % 10)]) ≠ []
      split
      · simp
      · simp

theorem natToCharsFuel_mem {fuel n : Nat} (h : n < fuel) :
    ∀ c ∈ natToCharsFuel fuel n, ∃ d, d < 10 ∧ c = digitChar d := by
  induction fuel generalizing n with
  | zero => omega
  | succ f ih =>
      intro c hc
      rw [show natToCharsFuel (f + 1) n =
          (if n < 10 then [digitChar n]
           else natToCharsFuel f (n / 10) ++ [digitChar (n % 10)]) from rfl] at hc
      by_cases h10 : n < 10
      · rw [if_pos h10] at hc
        simp only [List.mem_singleton] at hc
        exact ⟨n, h10, hc⟩
      · rw [if_neg h10] at hc
        rcases List.mem_append.mp hc with h1 | h2
        · exact ih (by omega) c h1
        · simp only [List.mem_singleton] at h2
          exact ⟨n % 10, Nat.mod_lt _ (by omega), h2⟩

/-! ### `atoi` -/

/-- The digit-accumulation loop of C `atoi`. -/
def atoiLoop : List Char → Nat → Nat
  | [], acc => acc
  | c :: rest, acc =>
      if isDigitC c then atoiLoop rest (acc * 10 + (c.toNat - 48)) else acc

/-- C `atoi`: skip leading whitespace, optional sign, then digits. -/
def atoiSigned (s : List Char) : Int :=
  match s.dropWhile isSpaceC with
  | '-' :: u => - (atoiLoop u 0 : Int)
  | '+' :: u => (atoiLoop u 0 : Int)
  | u => (atoiLoop u 0 : Int)

theorem atoiLoop_not_digit {c : Char} (h : isDigitC c = false)
    (rest : List Char) (acc : Nat) : atoiLoop (c :: rest) acc = acc := by
  simp [atoiLoop, h]

theorem atoiLoop_natToCharsFuel {fuel n : Nat} (h : n < fuel) :
    ∀ (rest : List Char) (acc : Nat),
      atoiLoop (natToCharsFuel fuel n ++ rest) acc =
      atoiLoop rest (acc * 10 ^ (natToCharsFuel fuel n).length + n) := by
  induction fuel generalizing n with
  | zero => omega
  | succ f ih =>
      intro rest acc
      rw [show natToCharsFuel (f + 1) n =
          (if n < 10 then [digitChar n]
           else natToCharsFuel f (n / 10) ++ [digitChar (n % 10)]) from rfl]
      by_cases h10 : n < 10
      · rw [if_pos h10]
        simp only [List.singleton_append, List.length_singleton, pow_one]
        rw [show atoiLoop (digitChar n :: rest) acc =
            atoiLoop rest (acc * 10 + ((digitChar n).toNat - 48)) from by
          simp [atoiLoop, digitChar_isDigit h10]]
        rw [digitChar_val h10]
      · rw [if_neg h10]
        have hdiv : n / 10 < f := by
          have h1 : n / 10 < n := Nat.div_lt_self (by omega) (by omega)
          omega
        rw [List.append_assoc, ih hdiv, List.singleton_append]
        have hd : (digitChar (n % 10)).toNat - 48 = n % 10 :=
          digitChar_val (Nat.mod_lt _ (by omega))
        rw [show atoiLoop (digitChar (n % 10) :: rest)
              (acc * 10 ^ (natToCharsFuel f (n / 10)).length + n / 10) =
            atoiLoop rest ((acc * 10 ^ (natToCharsFuel f (n / 10)).length + n / 10) * 10 +
              ((digitChar (n % 10)).toNat - 48)) from by
          simp [atoiLoop, digitChar_isDigit (Nat.mod_lt _ (by omega : (0:Nat) < 10))]]
        rw [hd]
        congr 1
        rw [List.length_append, List.length_singleton, pow_succ]
        have := Nat.div_add_mod n 10
        ring_nf
        omega

/-- `atoi` reads back a rendered decimal followed by a non-digit such as CR. -/
theorem atoiSigned_natToChars (n : Nat) {c : Char} (hc : isDigitC c = false)
    (rest : List Char) :
    atoiSigned (natToChars n ++ c :: rest) = (n : Int) := by
  have hn : n < n + 1 := Nat.lt_succ_self n
  have hmain : atoiLoop (natToChars n ++ c :: rest) 0 = n := by
    rw [show natToChars n = natToCharsFuel (n + 1) n from rfl,
        atoiLoop_natToCharsFuel hn, atoiLoop_not_digit hc]
    simp
  rcases h : natToChars n with _ | ⟨c0, tl⟩
  · exact absurd h (natToCharsFuel_ne_nil hn)
  obtain ⟨d0, hd0, hcd⟩ := natToCharsFuel_mem hn c0
    (by rw [show natToCharsFuel (n + 1) n = natToChars n from rfl, h]; simp)
  subst hcd
  rw [h] at hmain
  rw [List.cons_append] at hmain
  unfold atoiSigned
  rw [List.cons_append]
  rw [show List.dropWhile isSpaceC (digitChar d0 :: (tl ++ c :: rest)) =
      digitChar d0 :: (tl ++ c :: rest) from by
    simp [List.dropWhile_cons, digitChar_not_space hd0]]
  split
  · next u heq2 =>
      exfalso
      simp only [List.cons.injEq] at heq2
      exact digitChar_ne_minus hd0 heq2.1
  · next u heq2 =>
      exfalso
      simp only [List.cons.injEq] at heq2
      exact digitChar_ne_plus hd0 heq2.1
  · exact_mod_cast hmain

/-! ### CRLF scanning

`crlfIdx s` is the index of the first `"\r\n"` pair in `s`, mirroring the
bounded scans `for (i = start; i < buffer_len - 1; i++)` in
`parse_resp_command` (the final byte alone is never matched). -/

def crlfIdx : List Char → Option Nat
  | [] => none
  | c :: rest =>
      if c = '\r' ∧ rest.head? = some '\n' then some 0
      else (crlfIdx rest).map (· + 1)

theorem crlfIdx_prefix_no_cr {ds : List Char} (h : ∀ c ∈ ds, c ≠ '\r') (rest : List Char) :
    crlfIdx (ds ++ '\r' :: '\n' :: rest) = some ds.length := by
  induction ds with
  | nil => simp [crlfIdx]
  | cons c tl ih =>
      have hc : c ≠ '\r' := h c (List.mem_cons_self c tl)
      rw [List.cons_append, crlfIdx, if_neg (by simp [hc]),
          ih (fun x hx => h x (List.mem_cons_of_mem c hx))]
      simp

theorem crlfIdx_natToChars (n : Nat) (rest : List Char) :
    crlfIdx (natToChars n ++ '\r' :: '\n' :: rest) = some (natToChars n).length := by
  refine crlfIdx_prefix_no_cr (fun c hc => ?_) rest
  obtain ⟨d, hd, hcd⟩ := natToCharsFuel_mem (Nat.lt_succ_self n) c hc
  rw [hcd]; exact digitChar_ne_cr hd

/-! ### List helpers -/

theorem take_append_exact {α : Type} (l₁ l₂ : List α) : (l₁ ++ l₂).take l₁.length = l₁ := by
  induction l₁ with
  | nil => simp
  | cons a tl ih => simp [ih]

theorem drop_append_exact {α : Type} (l₁ l₂ : List α) : (l₁ ++ l₂).drop l₁.length = l₂ := by
  induction l₁ with
  | nil => simp
  | cons a tl ih => simp [ih]

theorem drop_append_add {α : Type} (l₁ l₂ : List α) (n : Nat) :
    (l₁ ++ l₂).drop (l₁.length + n) = l₂.drop n := by
  induction l₁ with
  | nil => simp
  | cons a tl ih => simp only [List.cons_append, List.length_cons, Nat.succ_add, List.drop_succ_cons]; exact ih

/-! ### The key-value store data model

`KeyValue` mirrors the C struct `{ char key[..]; char value[..]; time_t ttl; }`.
`ttl = 0` means persistent; `ttl > 0` is an absolute expiry timestamp. -/

structure KeyValue where
  key : List Char
  value : List Char
  ttl : Int
deriving DecidableEq

/-- The keys of a store, in array order. -/
def storeKeys (s : List KeyValue) : List (List Char) := s.map (·.key)

@[simp] theorem storeKeys_nil : storeKeys [] = [] := rfl

@[simp] theorem storeKeys_cons (a : KeyValue) (tl : List KeyValue) :
    storeKeys (a :: tl) = a.key :: storeKeys tl := rfl

@[simp] theorem storeKeys_append (s t : List KeyValue) :
    storeKeys (s ++ t) = storeKeys s ++ storeKeys t := by
  simp [storeKeys]

/-- The store invariant: no two entries share a key. -/
def nodupKeys (s : List KeyValue) : Prop := (storeKeys s).Nodup

instance (s : List KeyValue) : Decidable (nodupKeys s) :=
  inferInstanceAs (Decidable (storeKeys s).Nodup)

/-! Pure view helpers used to characterise the C store operations.
They are not part of the embedding; the embedded functions are below. -/

/-- The first entry with key `k` (what the linear scans hit first). -/
def firstK (k : List Char) : List KeyValue → Option KeyValue
  | [] => none
  | e :: rest => if e.key = k then some e else firstK k rest

/-- The index of the first entry with key `k`. -/
def idxK (k : List Char) : List KeyValue → Option Nat
  | [] => none
  | e :: rest => if e.key = k then some 0 else (idxK k rest).map (· + 1)

/-- Remove the first entry with key `k` (the `memmove` compaction). -/
def dropK (k : List Char) : List KeyValue → List KeyValue
  | [] => []
  | e :: rest => if e.key = k then rest else e :: dropK k rest

/-- Overwrite value and ttl of the first entry with key `k` in place. -/
def replaceK (k v : List Char) (t : Int) : List KeyValue → List KeyValue
  | [] => []
  | e :: rest =>
      if e.key = k then { e with value := v, ttl := t } :: rest
      else e :: replaceK k v t rest

theorem firstK_key {k : List Char} : ∀ {s : List KeyValue} {e : KeyValue},
    firstK k s = some e → e.key = k := by
  intro s
  induction s with
  | nil => intro e h; simp [firstK] at h
  | cons a tl ih =>
      intro e h
      rw [firstK] at h
      by_cases ha : a.key = k
      · rw [if_pos ha] at h; cases h; exact ha
      · rw [if_neg ha] at h; exact ih h

theorem firstK_eq_none_of_not_mem {k : List Char} :
    ∀ {s : List KeyValue}, k ∉ storeKeys s → firstK k s = none := by
  intro s
  induction s with
  | nil => intro _; rfl
  | cons a tl ih =>
      intro h
      rw [storeKeys, List.map_cons, List.mem_cons] at h
      push_neg at h
      rw [firstK, if_neg (fun he => h.1 he.symm)]
      exact ih h.2

theorem firstK_mem {k : List Char} : ∀ {s : List KeyValue} {e : KeyValue},
    firstK k s = some e → k ∈ storeKeys s := by
  intro s
  induction s with
  | nil => intro e h; simp [firstK] at h
  | cons a tl ih =>
      intro e h
      rw [firstK] at h
      by_cases ha : a.key = k
      · rw [storeKeys_cons, ha]; exact List.mem_cons_self _ _
      · rw [if_neg ha] at h
        rw [storeKeys_cons, List.mem_cons]
        exact Or.inr (ih h)

theorem firstK_entry_mem {k : List Char} : ∀ {s : List KeyValue} {e : KeyValue},
    firstK k s = some e → e ∈ s := by
  intro s
  induction s with
  | nil => intro e h; simp [firstK] at h
  | cons a tl ih =>
      intro e h
      rw [firstK] at h
      by_cases ha : a.key = k
      · rw [if_pos ha] at h; cases h; exact List.mem_cons_self _ _
      · rw [if_neg ha] at h; exact List.mem_cons_of_mem _ (ih h)

theorem storeKeys_dropK (k : List Char) :
    ∀ s : List KeyValue, storeKeys (dropK k s) = (storeKeys s).erase k := by
  intro s
  induction s with
  | nil => rfl
  | cons a tl ih =>
      rw [dropK]
      by_cases ha : a.key = k
      · rw [if_pos ha, storeKeys_cons, ha, List.erase_cons_head]
      · rw [if_neg ha, storeKeys_cons, storeKeys_cons, List.erase_cons_tail, ih]
        simp [ha]

theorem nodupKeys_dropK {k : List Char} {s : List KeyValue} (h : nodupKeys s) :
    nodupKeys (dropK k s) := by
  rw [nodupKeys, storeKeys_dropK]
  exact h.erase k

theorem not_mem_storeKeys_dropK {k : List Char} {s : List KeyValue} (h : nodupKeys s) :
    k ∉ storeKeys (dropK k s) := by
  rw [storeKeys_dropK]
  exact h.not_mem_erase

theorem dropK_length_of_mem {k : List Char} : ∀ {s : List KeyValue},
    k ∈ storeKeys s → (dropK k s).length + 1 = s.length := by
  intro s
  induction s with
  | nil => intro h; simp [storeKeys] at h
  | cons a tl ih =>
      intro h
      rw [dropK]
      by_cases ha : a.key = k
      · rw [if_pos ha]; simp
      · rw [if_neg ha]
        rw [storeKeys, List.map_cons, List.mem_cons] at h
        rcases h with h | h
        · exact absurd h.symm ha
        · simp only [List.length_cons]
          rw [← ih h]

theorem firstK_dropK_ne {j k : List Char} (hjk : j ≠ k) :
    ∀ s : List KeyValue, firstK j (dropK k s) = firstK j s := by
  intro s
  induction s with
  | nil => rfl
  | cons a tl ih =>
      rw [dropK]
      by_cases ha : a.key = k
      · rw [if_pos ha, firstK, if_neg (by rw [ha]; exact fun h => hjk h.symm)]
      · rw [if_neg ha, firstK, firstK]
        by_cases haj : a.key = j
        · rw [if_pos haj, if_pos haj]
        · rw [if_neg haj, if_neg haj, ih]

theorem storeKeys_replaceK (k v : List Char) (t : Int) :
    ∀ s : List KeyValue, storeKeys (replaceK k v t s) = storeKeys s := by
  intro s
  induction s with
  | nil => rfl
  | cons a tl ih =>
      rw [replaceK]
      by_cases ha : a.key = k
      · rw [if_pos ha]; simp [storeKeys]
      · rw [if_neg ha]; simp only [storeKeys, List.map_cons]
        rw [← storeKeys, ← storeKeys, ih]

theorem length_replaceK (k v : List Char) (t : Int) :
    ∀ s : List KeyValue, (replaceK k v t s).length = s.length := by
  intro s
  have h := storeKeys_replaceK k v t s
  have h1 : (storeKeys (replaceK k v t s)).length = (storeKeys s).length := by rw [h]
  simpa [storeKeys] using h1

theorem firstK_replaceK (k v : List Char) (t : Int) :
    ∀ s : List KeyValue,
      firstK k (replaceK k v t s) =
        (firstK k s).map (fun e => { e with value := v, ttl := t }) := by
  intro s
  induction s with
  | nil => rfl
  | cons a tl ih =>
      rw [replaceK]
      by_cases ha : a.key = k
      · rw [if_pos ha, firstK, if_pos ha, firstK, if_pos ha]
        rfl
      · rw [if_neg ha, firstK, if_neg ha, firstK, if_neg ha, ih]

theorem idxK_replaceK (k v : List Char) (t : Int) :
    ∀ s : List KeyValue, idxK k (replaceK k v t s) = idxK k s := by
  intro s
  induction s with
  | nil => rfl
  | cons a tl ih =>
      rw [replaceK]
      by_cases ha : a.key = k
      · rw [if_pos ha, idxK, if_pos ha, idxK, if_pos ha]
      · rw [if_neg ha, idxK, if_neg ha, idxK, if_neg ha, ih]

theorem firstK_append_of_none {k : List Char} {s : List KeyValue}
    (h : firstK k s = none) (t : List KeyValue) :
    firstK k (s ++ t) = firstK k t := by
  induction s with
  | nil => rfl
  | cons a tl ih =>
      rw [firstK] at h
      by_cases ha : a.key = k
      · rw [if_pos ha] at h; cases h
      · rw [if_neg ha] at h
        rw [List.cons_append, firstK, if_neg ha]
        exact ih h

theorem nodupKeys_append_one {k v : List Char} {t : Int} {s : List KeyValue}
    (h : nodupKeys s) (hk : k ∉ storeKeys s) :
    nodupKeys (s ++ [⟨k, v, t⟩]) := by
  rw [nodupKeys, storeKeys, List.map_append]
  rw [List.nodup_append]
  refine ⟨h, List.nodup_singleton _, ?_⟩
  intro a ha hb
  simp only [List.map_cons, List.map_nil, List.mem_singleton] at hb
  subst hb
  exact hk ha

/-! ### production-redis.c — store operations

Faithful embeddings of `find_key`, `set_key`, `get_key`, `delete_key` and the
`DEL` / `EXISTS` dispatch loops of `production-redis.c`.  `find_key` returns
the C return value (index of a live entry, `none` for `-1`) together with the
store after the lazy-expiry `memmove`; an expired first match is removed and
the scan stops there, exactly as in the C loop. -/

namespace ProductionRedis

def find_key (now : Int) (key : List Char) : List KeyValue → Option Nat × List KeyValue
  | [] => (none, [])
  | e :: rest =>
      if e.key = key then
        if 0 < e.ttl ∧ e.ttl ≤ now then (none, rest)
        else (some 0, e :: rest)
      else
        match find_key now key rest with
        | (none, rest2) => (none, e :: rest2)
        | (some i, rest2) => (some (i + 1), e :: rest2)

/-- In-place update of `store[idx].value` / `store[idx].ttl` in `set_key`. -/
def setEntryAt (v : List Char) (t : Int) : Nat → List KeyValue → List KeyValue
  | _, [] => []
  | 0, e :: rest => { e with value := v, ttl := t } :: rest
  | i + 1, e :: rest => e :: setEntryAt v t i rest

def set_key (key value : List Char) (ttl_seconds now : Int)
    (store : List KeyValue) : List KeyValue :=
  let t : Int := if 0 < ttl_seconds then now + ttl_seconds else 0
  match find_key now key store with
  | (some i, store2) => setEntryAt value t i store2
  | (none, store2) =>
      if store2.length < 10000 then store2 ++ [⟨key, value, t⟩] else store2

def get_key (now : Int) (key : List Char) (store : List KeyValue) :
    Option (List Char) × List KeyValue :=
  match find_key now key store with
  | (some i, store2) => ((store2[i]?).map (·.value), store2)
  | (none, store2) => (none, store2)

def delete_key (now : Int) (key : List Char) (store : List KeyValue) :
    Bool × List KeyValue :=
  match find_key now key store with
  | (some i, store2) => (true, store2.eraseIdx i)
  | (none, store2) => (false, store2)

/-- The `DEL` loop: `for (i = 1; i < argc; i++) deleted += delete_key(args[i]);` -/
def del_loop (now : Int) : List (List Char) → List KeyValue → Nat × List KeyValue
  | [], s => (0, s)
  | k :: ks, s =>
      let r := delete_key now k s
      let rest := del_loop now ks r.2
      ((if r.1 then 1 else 0) + rest.1, rest.2)

/-- The `EXISTS` loop: `if (find_key(args[i]) >= 0) exists++;` -/
def exists_loop (now : Int) : List (List Char) → List KeyValue → Nat × List KeyValue
  | [], s => (0, s)
  | k :: ks, s =>
      let r := find_key now k s
      let rest := exists_loop now ks r.2
      ((if r.1.isSome then 1 else 0) + rest.1, rest.2)

/-! #### Characterisation of `find_key` by the view helpers -/

theorem find_key_of_first_none {now : Int} {k : List Char} :
    ∀ {s : List KeyValue}, firstK k s = none → find_key now k s = (none, s) := by
  intro s
  induction s with
  | nil => intro _; rfl
  | cons a tl ih =>
      intro h
      rw [firstK] at h
      by_cases ha : a.key = k
      · rw [if_pos ha] at h; cases h
      · rw [if_neg ha] at h
        rw [find_key, if_neg ha, ih h]

theorem idxK_of_firstK {k : List Char} : ∀ {s : List KeyValue} {e : KeyValue},
    firstK k s = some e → ∃ i, idxK k s = some i := by
  intro s
  induction s with
  | nil => intro e h; simp [firstK] at h
  | cons a tl ih =>
      intro e h
      rw [firstK] at h
      by_cases ha : a.key = k
      · exact ⟨0, by rw [idxK, if_pos ha]⟩
      · rw [if_neg ha] at h
        obtain ⟨j, hj⟩ := ih h
        exact ⟨j + 1, by rw [idxK, if_neg ha, hj]; rfl⟩

theorem getElem_of_idxK {k : List Char} : ∀ {s : List KeyValue} {i : Nat},
    idxK k s = some i → s[i]? = firstK k s := by
  intro s
  induction s with
  | nil => intro i h; simp [idxK] at h
  | cons a tl ih =>
      intro i h
      rw [idxK] at h
      by_cases ha : a.key = k
      · rw [if_pos ha] at h; cases h
        rw [firstK, if_pos ha]; simp
      · rw [if_neg ha] at h
        rcases hj : idxK k tl with _ | j
        · rw [hj] at h; cases h
        · rw [hj] at h
          simp only [Option.map_some'] at h
          cases h
          rw [firstK, if_neg ha, ← ih hj]
          simp

theorem find_key_of_first_live {now : Int} {k : List Char} :
    ∀ {s : List KeyValue} {e : KeyValue}, firstK k s = some e →
      ¬(0 < e.ttl ∧ e.ttl ≤ now) → find_key now k s = (idxK k s, s) := by
  intro s
  induction s with
  | nil => intro e h; simp [firstK] at h
  | cons a tl ih =>
      intro e h hl
      rw [firstK] at h
      by_cases ha : a.key = k
      · rw [if_pos ha] at h; cases h
        rw [find_key, if_pos ha, if_neg hl, idxK, if_pos ha]
      · rw [if_neg ha] at h
        obtain ⟨j, hj⟩ := idxK_of_firstK h
        rw [find_key, if_neg ha, ih h hl, hj, idxK, if_neg ha, hj]
        rfl

theorem find_key_of_first_exp {now : Int} {k : List Char} :
    ∀ {s : List KeyValue} {e : KeyValue}, firstK k s = some e →
      (0 < e.ttl ∧ e.ttl ≤ now) → find_key now k s = (none, dropK k s) := by
  intro s
  induction s with
  | nil => intro e h; simp [firstK] at h
  | cons a tl ih =>
      intro e h hx
      rw [firstK] at h
      by_cases ha : a.key = k
      · rw [if_pos ha] at h; cases h
        rw [find_key, if_pos ha, if_pos hx, dropK, if_pos ha]
      · rw [if_neg ha] at h
        rw [find_key, if_neg ha, ih h hx, dropK, if_neg ha]

/-! #### Derived characterisations of the public store operations -/

theorem get_key_of_first_none {now : Int} {k : List Char} {s : List KeyValue}
    (h : firstK k s = none) : get_key now k s = (none, s) := by
  rw [get_key, find_key_of_first_none h]

theorem get_key_of_first_live {now : Int} {k : List Char} {s : List KeyValue}
    {e : KeyValue} (h : firstK k s = some e) (hl : ¬(0 < e.ttl ∧ e.ttl ≤ now)) :
    get_key now k s = (some e.value, s) := by
  obtain ⟨i, hi⟩ := idxK_of_firstK h
  rw [get_key, find_key_of_first_live h hl, hi]
  simp only [getElem_of_idxK hi, h, Option.map_some']

theorem get_key_of_first_exp {now : Int} {k : List Char} {s : List KeyValue}
    {e : KeyValue} (h : firstK k s = some e) (hx : 0 < e.ttl ∧ e.ttl ≤ now) :
    get_key now k s = (none, dropK k s) := by
  rw [get_key, find_key_of_first_exp h hx]

theorem eraseIdx_of_idxK {k : List Char} : ∀ {s : List KeyValue} {i : Nat},
    idxK k s = some i → s.eraseIdx i = dropK k s := by
  intro s
  induction s with
  | nil => intro i h; simp [idxK] at h
  | cons a tl ih =>
      intro i h
      rw [idxK] at h
      by_cases ha : a.key = k
      · rw [if_pos ha] at h; cases h
        rw [dropK, if_pos ha]; rfl
      · rw [if_neg ha] at h
        rcases hj : idxK k tl with _ | j
        · rw [hj] at h; cases h
        · rw [hj] at h
          simp only [Option.map_some'] at h
          cases h
          rw [dropK, if_neg ha, List.eraseIdx_cons_succ, ih hj]

theorem delete_key_of_first_none {now : Int} {k : List Char} {s : List KeyValue}
    (h : firstK k s = none) : delete_key now k s = (false, s) := by
  rw [delete_key, find_key_of_first_none h]

theorem delete_key_of_first_live {now : Int} {k : List Char} {s : List KeyValue}
    {e : KeyValue} (h : firstK k s = some e) (hl : ¬(0 < e.ttl ∧ e.ttl ≤ now)) :
    delete_key now k s = (true, dropK k s) := by
  obtain ⟨i, hi⟩ := idxK_of_firstK h
  rw [delete_key, find_key_of_first_live h hl, hi]
  show (true, s.eraseIdx i) = (true, dropK k s)
  rw [eraseIdx_of_idxK hi]

theorem delete_key_of_first_exp {now : Int} {k : List Char} {s : List KeyValue}
    {e : KeyValue} (h : firstK k s = some e) (hx : 0 < e.ttl ∧ e.ttl ≤ now) :
    delete_key now k s = (false, dropK k s) := by
  rw [delete_key, find_key_of_first_exp h hx]

theorem setEntryAt_of_idxK {v : List Char} {t : Int} {k : List Char} :
    ∀ {s : List KeyValue} {i : Nat},
      idxK k s = some i → setEntryAt v t i s = replaceK k v t s := by
  intro s
  induction s with
  | nil => intro i h; simp [idxK] at h
  | cons a tl ih =>
      intro i h
      rw [idxK] at h
      by_cases ha : a.key = k
      · rw [if_pos ha] at h; cases h
        rw [setEntryAt, replaceK, if_pos ha]
      · rw [if_neg ha] at h
        rcases hj : idxK k tl with _ | j
        · rw [hj] at h; cases h
        · rw [hj] at h
          simp only [Option.map_some'] at h
          cases h
          rw [setEntryAt, replaceK, if_neg ha, ih hj]

theorem set_key_of_first_none {k v : List Char} {tls now : Int} {s : List KeyValue}
    (h : firstK k s = none) :
    set_key k v tls now s =
      (if s.length < 10000
       then s ++ [⟨k, v, if 0 < tls then now + tls else 0⟩] else s) := by
  rw [set_key, find_key_of_first_none h]

theorem set_key_of_first_live {k v : List Char} {tls now : Int} {s : List KeyValue}
    {e : KeyValue} (h : firstK k s = some e) (hl : ¬(0 < e.ttl ∧ e.ttl ≤ now)) :
    set_key k v tls now s = replaceK k v (if 0 < tls then now + tls else 0) s := by
  obtain ⟨i, hi⟩ := idxK_of_firstK h
  rw [set_key, find_key_of_first_live h hl, hi]
  show setEntryAt v (if 0 < tls then now + tls else 0) i s =
    replaceK k v (if 0 < tls then now + tls else 0) s
  exact setEntryAt_of_idxK hi

theorem set_key_of_first_exp {k v : List Char} {tls now : Int} {s : List KeyValue}
    {e : KeyValue} (h : firstK k s = some e) (hx : 0 < e.ttl ∧ e.ttl ≤ now) :
    set_key k v tls now s =
      (if (dropK k s).length < 10000
       then dropK k s ++ [⟨k, v, if 0 < tls then now + tls else 0⟩]
       else dropK k s) := by
  rw [set_key, find_key_of_first_exp h hx]

end ProductionRedis

theorem firstK_some_of_mem {k : List Char} : ∀ {s : List KeyValue},
    k ∈ storeKeys s → ∃ e, firstK k s = some e := by
  intro s
  induction s with
  | nil => intro h; simp [storeKeys] at h
  | cons a tl ih =>
      intro h
      by_cases ha : a.key = k
      · exact ⟨a, by rw [firstK, if_pos ha]⟩
      · rw [storeKeys_cons, List.mem_cons] at h
        rcases h with h | h
        · exact absurd h.symm ha
        · obtain ⟨e, he⟩ := ih h
          exact ⟨e, by rw [firstK, if_neg ha, he]⟩

theorem not_mem_of_firstK_none {k : List Char} {s : List KeyValue}
    (h : firstK k s = none) : k ∉ storeKeys s := by
  intro hm
  obtain ⟨e, he⟩ := firstK_some_of_mem hm
  rw [h] at he
  cases he

namespace ProductionRedis

/-- Key liveness as observed by `find_key` (C `find_key(k) >= 0`). -/
def liveB (now : Int) (s : List KeyValue) (k : List Char) : Bool :=
  (find_key now k s).1.isSome

theorem liveB_of_first_none {now : Int} {k : List Char} {s : List KeyValue}
    (h : firstK k s = none) : liveB now s k = false := by
  rw [liveB, find_key_of_first_none h]
  rfl

theorem liveB_of_first_live {now : Int} {k : List Char} {s : List KeyValue}
    {e : KeyValue} (h : firstK k s = some e) (hl : ¬(0 < e.ttl ∧ e.ttl ≤ now)) :
    liveB now s k = true := by
  obtain ⟨i, hi⟩ := idxK_of_firstK h
  rw [liveB, find_key_of_first_live h hl, hi]
  rfl

theorem liveB_of_first_exp {now : Int} {k : List Char} {s : List KeyValue}
    {e : KeyValue} (h : firstK k s = some e) (hx : 0 < e.ttl ∧ e.ttl ≤ now) :
    liveB now s k = false := by
  rw [liveB, find_key_of_first_exp h hx]
  rfl

theorem liveB_congr {now : Int} {j : List Char} {s1 s2 : List KeyValue}
    (h : firstK j s1 = firstK j s2) : liveB now s1 j = liveB now s2 j := by
  rcases hf : firstK j s1 with _ | e
  · rw [liveB_of_first_none hf, liveB_of_first_none (h.symm.trans hf)]
  · have hf2 : firstK j s2 = some e := by rw [← h, hf]
    by_cases hl : 0 < e.ttl ∧ e.ttl ≤ now
    · rw [liveB_of_first_exp hf hl, liveB_of_first_exp hf2 hl]
    · rw [liveB_of_first_live hf hl, liveB_of_first_live hf2 hl]

theorem liveB_elim {now : Int} {k : List Char} {s : List KeyValue}
    (h : liveB now s k = true) :
    ∃ e, firstK k s = some e ∧ ¬(0 < e.ttl ∧ e.ttl ≤ now) := by
  rcases hf : firstK k s with _ | e
  · rw [liveB_of_first_none hf] at h; cases h
  · by_cases hl : 0 < e.ttl ∧ e.ttl ≤ now
    · rw [liveB_of_first_exp hf hl] at h; cases h
    · exact ⟨e, rfl, hl⟩

theorem liveB_dropK_self {now : Int} {k : List Char} {s : List KeyValue}
    (h : nodupKeys s) : liveB now (dropK k s) k = false :=
  liveB_of_first_none (firstK_eq_none_of_not_mem (not_mem_storeKeys_dropK h))

theorem liveB_dropK_ne {now : Int} {j k : List Char} (hjk : j ≠ k)
    (s : List KeyValue) : liveB now (dropK k s) j = liveB now s j :=
  liveB_congr (firstK_dropK_ne hjk s)

/-- The lazy-expiry side effect of a lookup never changes observed liveness
(on a store with unique keys). -/
theorem liveB_find_snd {now : Int} {k : List Char} {s : List KeyValue}
    (h : nodupKeys s) (j : List Char) :
    liveB now (find_key now k s).2 j = liveB now s j := by
  rcases hf : firstK k s with _ | e
  · rw [find_key_of_first_none hf]
  · by_cases hl : 0 < e.ttl ∧ e.ttl ≤ now
    · rw [find_key_of_first_exp hf hl]
      by_cases hjk : j = k
      · subst hjk
        rw [liveB_dropK_self h, liveB_of_first_exp hf hl]
      · exact liveB_dropK_ne hjk s
    · rw [find_key_of_first_live hf hl]

theorem nodupKeys_find_snd {now : Int} {k : List Char} {s : List KeyValue}
    (h : nodupKeys s) : nodupKeys (find_key now k s).2 := by
  rcases hf : firstK k s with _ | e
  · rw [find_key_of_first_none hf]; exact h
  · by_cases hl : 0 < e.ttl ∧ e.ttl ≤ now
    · rw [find_key_of_first_exp hf hl]; exact nodupKeys_dropK h
    · rw [find_key_of_first_live hf hl]; exact h

theorem nodupKeys_delete_snd {now : Int} {k : List Char} {s : List KeyValue}
    (h : nodupKeys s) : nodupKeys (delete_key now k s).2 := by
  rcases hf : firstK k s with _ | e
  · rw [delete_key_of_first_none hf]; exact h
  · by_cases hl : 0 < e.ttl ∧ e.ttl ≤ now
    · rw [delete_key_of_first_exp hf hl]; exact nodupKeys_dropK h
    · rw [delete_key_of_first_live hf hl]; exact nodupKeys_dropK h

theorem nodupKeys_get_snd {now : Int} {k : List Char} {s : List KeyValue}
    (h : nodupKeys s) : nodupKeys (get_key now k s).2 := by
  rcases hf : firstK k s with _ | e
  · rw [get_key_of_first_none hf]; exact h
  · by_cases hl : 0 < e.ttl ∧ e.ttl ≤ now
    · rw [get_key_of_first_exp hf hl]; exact nodupKeys_dropK h
    · rw [get_key_of_first_live hf hl]; exact h

/-- After `set_key`, the store holds exactly the written entry under `k`. -/
theorem firstK_set_key {k v : List Char} {tls now : Int} {s : List KeyValue}
    (h : nodupKeys s) (hcap : s.length < 10000) :
    firstK k (set_key k v tls now s) =
      some ⟨k, v, if 0 < tls then now + tls else 0⟩ := by
  rcases hf : firstK k s with _ | e
  · rw [set_key_of_first_none hf, if_pos hcap,
        firstK_append_of_none hf, firstK, if_pos rfl]
  · by_cases hl : 0 < e.ttl ∧ e.ttl ≤ now
    · rw [set_key_of_first_exp hf hl]
      have hmem : k ∈ storeKeys s := firstK_mem hf
      have hlen : (dropK k s).length + 1 = s.length := dropK_length_of_mem hmem
      rw [if_pos (by omega)]
      rw [firstK_append_of_none
            (firstK_eq_none_of_not_mem (not_mem_storeKeys_dropK h)),
          firstK, if_pos rfl]
    · rw [set_key_of_first_live hf hl, firstK_replaceK, hf]
      have hk : e.key = k := firstK_key hf
      simp only [Option.map_some']
      cases e
      simp_all

theorem nodupKeys_set_key {k v : List Char} {tls now : Int} {s : List KeyValue}
    (h : nodupKeys s) : nodupKeys (set_key k v tls now s) := by
  rcases hf : firstK k s with _ | e
  · rw [set_key_of_first_none hf]
    split
    · exact nodupKeys_append_one h (not_mem_of_firstK_none hf)
    · exact h
  · by_cases hl : 0 < e.ttl ∧ e.ttl ≤ now
    · rw [set_key_of_first_exp hf hl]
      split
      · exact nodupKeys_append_one (nodupKeys_dropK h) (not_mem_storeKeys_dropK h)
      · exact nodupKeys_dropK h
    · rw [set_key_of_first_live hf hl]
      rw [nodupKeys, storeKeys_replaceK]
      exact h

end ProductionRedis

/-! ### Counting helpers for multi-key DEL / EXISTS -/

theorem filter_length_split {α : Type} [DecidableEq α] {p q : α → Bool} {a : α} :
    ∀ {l : List α}, l.Nodup → a ∈ l → p a = true → q a = false →
      (∀ x ∈ l, x ≠ a → p x = q x) →
      (l.filter p).length = (l.filter q).length + 1 := by
  intro l
  induction l with
  | nil => intro _ hm; cases hm
  | cons b tl ih =>
      intro hnd hm hp hq hcong
      rw [List.nodup_cons] at hnd
      by_cases hba : b = a
      · subst hba
        rw [List.filter_cons, if_pos (by simp [hp]), List.filter_cons,
            if_neg (by simp [hq])]
        have : tl.filter p = tl.filter q :=
          List.filter_congr (fun x hx =>
            hcong x (List.mem_cons_of_mem _ hx) (fun hxb => hnd.1 (hxb ▸ hx)))
        rw [this]
        simp
      · have hmt : a ∈ tl := by
          rcases List.mem_cons.mp hm with h | h
          · exact absurd h.symm hba
          · exact h
        have hbq : p b = q b := hcong b (List.mem_cons_self _ _) hba
        have hrec := ih hnd.2 hmt hp hq
          (fun x hx hxa => hcong x (List.mem_cons_of_mem _ hx) hxa)
        rcases hpb : p b with _ | _
        · rw [List.filter_cons, if_neg (by simp [hpb]), List.filter_cons,
              if_neg (by simp [← hbq, hpb])]
          exact hrec
        · rw [List.filter_cons, if_pos (by simp [hpb]), List.filter_cons,
              if_pos (by simp [← hbq, hpb])]
          simp only [List.length_cons]
          rw [hrec]

namespace ProductionRedis

theorem delete_key_true_elim {now : Int} {k : List Char} {s s2 : List KeyValue}
    (h : delete_key now k s = (true, s2)) :
    s2 = dropK k s ∧ liveB now s k = true := by
  rcases hf : firstK k s with _ | e
  · rw [delete_key_of_first_none hf] at h; cases h
  · by_cases hl : 0 < e.ttl ∧ e.ttl ≤ now
    · rw [delete_key_of_first_exp hf hl] at h; cases h
    · rw [delete_key_of_first_live hf hl] at h
      cases h
      exact ⟨rfl, liveB_of_first_live hf hl⟩

theorem delete_key_false_elim {now : Int} {k : List Char} {s s2 : List KeyValue}
    (hnd : nodupKeys s) (h : delete_key now k s = (false, s2)) :
    liveB now s k = false ∧ (∀ j, liveB now s2 j = liveB now s j) ∧ nodupKeys s2 := by
  rcases hf : firstK k s with _ | e
  · rw [delete_key_of_first_none hf] at h
    cases h
    exact ⟨liveB_of_first_none hf, fun j => rfl, hnd⟩
  · by_cases hl : 0 < e.ttl ∧ e.ttl ≤ now
    · rw [delete_key_of_first_exp hf hl] at h
      cases h
      refine ⟨liveB_of_first_exp hf hl, fun j => ?_, nodupKeys_dropK hnd⟩
      by_cases hjk : j = k
      · subst hjk
        rw [liveB_dropK_self hnd, liveB_of_first_exp hf hl]
      · exact liveB_dropK_ne hjk s
    · rw [delete_key_of_first_live hf hl] at h
      cases h

/-- A second delete of the same key fails and changes nothing
(the "duplicate key counts once" clause of multi-key DEL). -/
theorem delete_key_twice {now : Int} {k : List Char} {s s2 : List KeyValue}
    (hnd : nodupKeys s) (h : delete_key now k s = (true, s2)) :
    delete_key now k s2 = (false, s2) := by
  obtain ⟨h2, _⟩ := delete_key_true_elim h
  subst h2
  exact delete_key_of_first_none
    (firstK_eq_none_of_not_mem (not_mem_storeKeys_dropK hnd))

/-- The `EXISTS` loop counts, with multiplicity, the keys live at entry. -/
theorem exists_loop_count {now : Int} :
    ∀ (ks : List (List Char)) {s : List KeyValue}, nodupKeys s →
      (exists_loop now ks s).1 = (ks.filter (fun j => liveB now s j)).length := by
  intro ks
  induction ks with
  | nil => intro s _; rfl
  | cons k ks ih =>
      intro s hnd
      have htr := @liveB_find_snd now k s hnd
      have hcnt := ih (@nodupKeys_find_snd now k s hnd)
      have hfc : List.filter (fun j => liveB now (find_key now k s).2 j) ks =
          List.filter (fun j => liveB now s j) ks :=
        List.filter_congr (fun x _ => htr x)
      show (if (find_key now k s).1.isSome then 1 else 0) +
          (exists_loop now ks (find_key now k s).2).1 =
          (List.filter (fun j => liveB now s j) (k :: ks)).length
      rw [hcnt, hfc, List.filter_cons]
      by_cases hl : liveB now s k = true
      · rw [if_pos hl]
        have hls : (find_key now k s).1.isSome = true := hl
        rw [hls]
        simp [Nat.add_comm]
      · rw [if_neg hl]
        have hls : (find_key now k s).1.isSome = false := by
          rcases hfk : liveB now s k with _ | _
          · exact hfk
          · exact absurd hfk hl
        rw [hls]
        simp

/-- The `DEL` loop counts each distinct key that was live at entry once. -/
theorem del_loop_count {now : Int} :
    ∀ (ks : List (List Char)) {s : List KeyValue}, nodupKeys s →
      (del_loop now ks s).1 = (ks.dedup.filter (fun j => liveB now s j)).length := by
  intro ks
  induction ks with
  | nil => intro s _; rfl
  | cons k ks ih =>
      intro s hnd
      show (if (delete_key now k s).1 then 1 else 0) +
          (del_loop now ks (delete_key now k s).2).1 =
          (((k :: ks).dedup).filter (fun j => liveB now s j)).length
      rcases hdel : delete_key now k s with ⟨b, s2⟩
      rcases b with _ | _
      · obtain ⟨hlv, htr, hnd2⟩ := delete_key_false_elim hnd hdel
        have hcnt := ih hnd2
        have hfc : List.filter (fun j => liveB now s2 j) ks.dedup =
            List.filter (fun j => liveB now s j) ks.dedup :=
          List.filter_congr (fun x _ => htr x)
        show 0 + (del_loop now ks s2).1 =
            (((k :: ks).dedup).filter (fun j => liveB now s j)).length
        rw [Nat.zero_add, hcnt, hfc]
        by_cases hmem : k ∈ ks
        · rw [List.dedup_cons_of_mem hmem]
        · rw [List.dedup_cons_of_not_mem hmem, List.filter_cons,
              if_neg (show ¬((fun j => liveB now s j) k = true) from by
                intro hko
                have hko2 : liveB now s k = true := hko
                rw [hlv] at hko2
                cases hko2)]
      · obtain ⟨hs2, hlv⟩ := delete_key_true_elim hdel
        subst hs2
        have hcnt := ih (nodupKeys_dropK (k := k) hnd)
        show 1 + (del_loop now ks (dropK k s)).1 =
            (((k :: ks).dedup).filter (fun j => liveB now s j)).length
        rw [hcnt]
        by_cases hmem : k ∈ ks
        · rw [List.dedup_cons_of_mem hmem]
          have hsplit := filter_length_split (p := fun j => liveB now s j)
            (q := fun j => liveB now (dropK k s) j) (a := k)
            (List.nodup_dedup ks) (List.mem_dedup.mpr hmem) hlv
            (liveB_dropK_self hnd)
            (fun x _ hxk => (liveB_dropK_ne hxk s).symm)
          omega
        · rw [List.dedup_cons_of_not_mem hmem, List.filter_cons,
              if_pos (show (fun j => liveB now s j) k = true from hlv)]
          have hfc : List.filter (fun j => liveB now (dropK k s) j) ks.dedup =
              List.filter (fun j => liveB now s j) ks.dedup :=
            List.filter_congr (fun x hx => liveB_dropK_ne
              (fun hxe => hmem (by rw [← hxe]; exact List.mem_dedup.mp hx)) s)
          rw [hfc, List.length_cons]
          omega

end ProductionRedis

/-! ### mini-redis.c — store operations

Same structure as the production store except that the expiry comparison is
strict (`store[i].ttl < time(NULL)`) and the capacity is 1000. -/

namespace MiniRedis

def find_key (now : Int) (key : List Char) : List KeyValue → Option Nat × List KeyValue
  | [] => (none, [])
  | e :: rest =>
      if e.key = key then
        if 0 < e.ttl ∧ e.ttl < now then (none, rest)
        else (some 0, e :: rest)
      else
        match find_key now key rest with
        | (none, rest2) => (none, e :: rest2)
        | (some i, rest2) => (some (i + 1), e :: rest2)

def set_key (key value : List Char) (ttl now : Int)
    (store : List KeyValue) : List KeyValue :=
  let t : Int := if 0 < ttl then now + ttl else 0
  match find_key now key store with
  | (some i, store2) => ProductionRedis.setEntryAt value t i store2
  | (none, store2) =>
      if store2.length < 1000 then store2 ++ [⟨key, value, t⟩] else store2

def get_key (now : Int) (key : List Char) (store : List KeyValue) :
    Option (List Char) × List KeyValue :=
  match find_key now key store with
  | (some i, store2) => ((store2[i]?).map (·.value), store2)
  | (none, store2) => (none, store2)

/-- `exists_key(key) { return find_key(key) >= 0; }` -/
def exists_key (now : Int) (key : List Char) (store : List KeyValue) :
    Bool × List KeyValue :=
  let r := find_key now key store
  (r.1.isSome, r.2)

theorem find_key_of_first_noneM {now : Int} {k : List Char} :
    ∀ {s : List KeyValue}, firstK k s = none → find_key now k s = (none, s) := by
  intro s
  induction s with
  | nil => intro _; rfl
  | cons a tl ih =>
      intro h
      rw [firstK] at h
      by_cases ha : a.key = k
      · rw [if_pos ha] at h; cases h
      · rw [if_neg ha] at h
        rw [find_key, if_neg ha, ih h]

theorem find_key_of_first_liveM {now : Int} {k : List Char} :
    ∀ {s : List KeyValue} {e : KeyValue}, firstK k s = some e →
      ¬(0 < e.ttl ∧ e.ttl < now) → find_key now k s = (idxK k s, s) := by
  intro s
  induction s with
  | nil => intro e h; simp [firstK] at h
  | cons a tl ih =>
      intro e h hl
      rw [firstK] at h
      by_cases ha : a.key = k
      · rw [if_pos ha] at h; cases h
        rw [find_key, if_pos ha, if_neg hl, idxK, if_pos ha]
      · rw [if_neg ha] at h
        obtain ⟨j, hj⟩ := ProductionRedis.idxK_of_firstK h
        rw [find_key, if_neg ha, ih h hl, hj, idxK, if_neg ha, hj]
        rfl

theorem find_key_of_first_expM {now : Int} {k : List Char} :
    ∀ {s : List KeyValue} {e : KeyValue}, firstK k s = some e →
      (0 < e.ttl ∧ e.ttl < now) → find_key now k s = (none, dropK k s) := by
  intro s
  induction s with
  | nil => intro e h; simp [firstK] at h
  | cons a tl ih =>
      intro e h hx
      rw [firstK] at h
      by_cases ha : a.key = k
      · rw [if_pos ha] at h; cases h
        rw [find_key, if_pos ha, if_pos hx, dropK, if_pos ha]
      · rw [if_neg ha] at h
        rw [find_key, if_neg ha, ih h hx, dropK, if_neg ha]

theorem get_key_of_first_liveM {now : Int} {k : List Char} {s : List KeyValue}
    {e : KeyValue} (h : firstK k s = some e) (hl : ¬(0 < e.ttl ∧ e.ttl < now)) :
    get_key now k s = (some e.value, s) := by
  obtain ⟨i, hi⟩ := ProductionRedis.idxK_of_firstK h
  rw [get_key, find_key_of_first_liveM h hl, hi]
  simp only [ProductionRedis.getElem_of_idxK hi, h, Option.map_some']

theorem get_key_of_first_expM {now : Int} {k : List Char} {s : List KeyValue}
    {e : KeyValue} (h : firstK k s = some e) (hx : 0 < e.ttl ∧ e.ttl < now) :
    get_key now k s = (none, dropK k s) := by
  rw [get_key, find_key_of_first_expM h hx]

theorem exists_key_of_first_exp {now : Int} {k : List Char} {s : List KeyValue}
    {e : KeyValue} (h : firstK k s = some e) (hx : 0 < e.ttl ∧ e.ttl < now) :
    exists_key now k s = (false, dropK k s) := by
  rw [exists_key, find_key_of_first_expM h hx]
  rfl

theorem set_key_of_first_noneM {k v : List Char} {tls now : Int} {s : List KeyValue}
    (h : firstK k s = none) :
    set_key k v tls now s =
      (if s.length < 1000
       then s ++ [⟨k, v, if 0 < tls then now + tls else 0⟩] else s) := by
  rw [set_key, find_key_of_first_noneM h]

theorem set_key_of_first_liveM {k v : List Char} {tls now : Int} {s : List KeyValue}
    {e : KeyValue} (h : firstK k s = some e) (hl : ¬(0 < e.ttl ∧ e.ttl < now)) :
    set_key k v tls now s = replaceK k v (if 0 < tls then now + tls else 0) s := by
  obtain ⟨i, hi⟩ := ProductionRedis.idxK_of_firstK h
  rw [set_key, find_key_of_first_liveM h hl, hi]
  show ProductionRedis.setEntryAt v (if 0 < tls then now + tls else 0) i s =
    replaceK k v (if 0 < tls then now + tls else 0) s
  exact ProductionRedis.setEntryAt_of_idxK hi

theorem set_key_of_first_expM {k v : List Char} {tls now : Int} {s : List KeyValue}
    {e : KeyValue} (h : firstK k s = some e) (hx : 0 < e.ttl ∧ e.ttl < now) :
    set_key k v tls now s =
      (if (dropK k s).length < 1000
       then dropK k s ++ [⟨k, v, if 0 < tls then now + tls else 0⟩]
       else dropK k s) := by
  rw [set_key, find_key_of_first_expM h hx]

theorem firstK_set_keyM {k v : List Char} {tls now : Int} {s : List KeyValue}
    (h : nodupKeys s) (hcap : s.length < 1000) :
    firstK k (set_key k v tls now s) =
      some ⟨k, v, if 0 < tls then now + tls else 0⟩ := by
  rcases hf : firstK k s with _ | e
  · rw [set_key_of_first_noneM hf, if_pos hcap,
        firstK_append_of_none hf, firstK, if_pos rfl]
  · by_cases hl : 0 < e.ttl ∧ e.ttl < now
    · rw [set_key_of_first_expM hf hl]
      have hmem : k ∈ storeKeys s := firstK_mem hf
      have hlen : (dropK k s).length + 1 = s.length := dropK_length_of_mem hmem
      rw [if_pos (by omega)]
      rw [firstK_append_of_none
            (firstK_eq_none_of_not_mem (not_mem_storeKeys_dropK h)),
          firstK, if_pos rfl]
    · rw [set_key_of_first_liveM hf hl, firstK_replaceK, hf]
      have hk : e.key = k := firstK_key hf
      simp only [Option.map_some']
      cases e
      simp_all

theorem nodupKeys_set_keyM {k v : List Char} {tls now : Int} {s : List KeyValue}
    (h : nodupKeys s) : nodupKeys (set_key k v tls now s) := by
  rcases hf : firstK k s with _ | e
  · rw [set_key_of_first_noneM hf]
    split
    · exact nodupKeys_append_one h (not_mem_of_firstK_none hf)
    · exact h
  · by_cases hl : 0 < e.ttl ∧ e.ttl < now
    · rw [set_key_of_first_expM hf hl]
      split
      · exact nodupKeys_append_one (nodupKeys_dropK h) (not_mem_storeKeys_dropK h)
      · exact nodupKeys_dropK h
    · rw [set_key_of_first_liveM hf hl]
      rw [nodupKeys, storeKeys_replaceK]
      exact h

end MiniRedis

/-! ### production-redis.c — RESP decoder and encoder

`parse_resp_command` is the embedding of the C parser.  The C function
returns `argc` and writes `*consumed`; failures of every kind (incomplete
frame, malformed frame, over-long argument) all return `-1`, embedded here as
`none` — the parser has a single failure code. -/

namespace ProductionRedis

/-- The argument loop of `parse_resp_command`, acting on the buffer suffix
starting at the current `pos`.  The returned `Nat` is the number of bytes the
loop advanced `pos` by. -/
def parse_args : Nat → List Char → Option (List (List Char) × Nat)
  | 0, _ => some ([], 0)
  | n + 1, s =>
      match s with
      | [] => none
      | c :: s1 =>
          if c = '$' then
            match crlfIdx s1 with
            | none => none
            | some k =>
                let arg_len := atoiSigned s1
                if arg_len < 0 then none
                else
                  let alen := arg_len.toNat
                  let s2 := s1.drop (k + 2)
                  if s2.length < alen + 2 then none
                  else if 512 ≤ alen then none
                  else
                    match parse_args n (s2.drop (alen + 2)) with
                    | none => none
                    | some (as, c2) => some (s2.take alen :: as, (k + alen + 5) + c2)
          else none

/-- `parse_resp_command(buffer, buffer_len, args, max_args, &consumed)`.
`some (args, consumed)` is the success case (`return argc` with `argc =
args.length`); `none` is `return -1`, used for incomplete and malformed
buffers alike. -/
def parse_resp_command (buf : List Char) (max_args : Int) :
    Option (List (List Char) × Nat) :=
  if buf.length < 4 then none
  else
    match buf with
    | [] => none
    | c :: s1 =>
        if c = '*' then
          match crlfIdx s1 with
          | none => none
          | some k =>
              let argc := atoiSigned s1
              if argc ≤ 0 ∨ max_args < argc then none
              else
                match parse_args argc.toNat (s1.drop (k + 2)) with
                | none => none
                | some (as, c2) => some (as, (k + 3) + c2)
        else none

/-- Wire encoding of one bulk-string argument: `$<len>\r\n<bytes>\r\n`. -/
def encodeBulk (a : List Char) : List Char :=
  '$' :: (natToChars a.length ++ '\r' :: '\n' :: (a ++ ['\r', '\n']))

/-- Wire encoding of a complete command frame: `*<argc>\r\n` then the args. -/
def encodeCommand (args : List (List Char)) : List Char :=
  '*' :: (natToChars args.length ++ '\r' :: '\n' :: (args.map encodeBulk).flatten)

/-- A command frame the parser accepts in full: RESP arrays of 1 to
`MAX_ARGS = 32` bulk strings, each shorter than the 512-byte argument cap. -/
def wfCmd (args : List (List Char)) : Prop :=
  0 < args.length ∧ args.length ≤ 32 ∧ ∀ a ∈ args, a.length < 512

instance (args : List (List Char)) : Decidable (wfCmd args) :=
  inferInstanceAs
    (Decidable (0 < args.length ∧ args.length ≤ 32 ∧ ∀ a ∈ args, a.length < 512))

theorem encodeBulk_append (a X : List Char) :
    encodeBulk a ++ X =
      '$' :: (natToChars a.length ++ '\r' :: '\n' :: (a ++ '\r' :: '\n' :: X)) := by
  simp [encodeBulk]

theorem parse_args_step {a : List Char} (ha : a.length < 512) (X : List Char) (n : Nat) :
    parse_args (n + 1)
        ('$' :: (natToChars a.length ++ '\r' :: '\n' :: (a ++ '\r' :: '\n' :: X))) =
      (match parse_args n X with
       | none => none
       | some (as, c2) =>
           some (a :: as, ((natToChars a.length).length + a.length + 5) + c2)) := by
  have hcr : crlfIdx (natToChars a.length ++ '\r' :: '\n' :: (a ++ '\r' :: '\n' :: X)) =
      some (natToChars a.length).length := crlfIdx_natToChars _ _
  have hat : atoiSigned (natToChars a.length ++ '\r' :: '\n' :: (a ++ '\r' :: '\n' :: X)) =
      (a.length : Int) := atoiSigned_natToChars _ (by decide) _
  have hdrop : (natToChars a.length ++ '\r' :: '\n' :: (a ++ '\r' :: '\n' :: X)).drop
      ((natToChars a.length).length + 2) = a ++ '\r' :: '\n' :: X := by
    rw [drop_append_add]
    rfl
  rw [parse_args]
  simp only [hcr, hat, hdrop]
  rw [if_pos trivial, if_neg (by omega : ¬((a.length : Int) < 0))]
  rw [show ((a.length : Int)).toNat = a.length from Int.toNat_natCast a.length]
  rw [if_neg (by simp : ¬((a ++ '\r' :: '\n' :: X).length < a.length + 2))]
  rw [if_neg (by omega : ¬(512 ≤ a.length))]
  rw [show (a ++ '\r' :: '\n' :: X).drop (a.length + 2) = X from by
    rw [drop_append_add]; rfl]
  rw [show (a ++ '\r' :: '\n' :: X).take a.length = a from take_append_exact a _]

theorem parse_args_step_long {a : List Char} (ha : 512 ≤ a.length) (X : List Char) (n : Nat) :
    parse_args (n + 1)
        ('$' :: (natToChars a.length ++ '\r' :: '\n' :: (a ++ '\r' :: '\n' :: X))) =
      none := by
  have hcr : crlfIdx (natToChars a.length ++ '\r' :: '\n' :: (a ++ '\r' :: '\n' :: X)) =
      some (natToChars a.length).length := crlfIdx_natToChars _ _
  have hat : atoiSigned (natToChars a.length ++ '\r' :: '\n' :: (a ++ '\r' :: '\n' :: X)) =
      (a.length : Int) := atoiSigned_natToChars _ (by decide) _
  have hdrop : (natToChars a.length ++ '\r' :: '\n' :: (a ++ '\r' :: '\n' :: X)).drop
      ((natToChars a.length).length + 2) = a ++ '\r' :: '\n' :: X := by
    rw [drop_append_add]
    rfl
  rw [parse_args]
  simp only [hcr, hat, hdrop]
  rw [if_pos trivial, if_neg (by omega : ¬((a.length : Int) < 0))]
  rw [show ((a.length : Int)).toNat = a.length from Int.toNat_natCast a.length]
  rw [if_neg (by simp : ¬((a ++ '\r' :: '\n' :: X).length < a.length + 2))]
  rw [if_pos (ha : 512 ≤ a.length)]

theorem encodeBulk_length (a : List Char) :
    (encodeBulk a).length = (natToChars a.length).length + a.length + 5 := by
  simp [encodeBulk]
  omega

theorem parse_args_encode :
    ∀ (args : List (List Char)), (∀ a ∈ args, a.length < 512) → ∀ rest,
      parse_args args.length ((args.map encodeBulk).flatten ++ rest) =
        some (args, ((args.map encodeBulk).flatten).length) := by
  intro args
  induction args with
  | nil => intro _ rest; simp [parse_args]
  | cons a as ih =>
      intro h rest
      have ha : a.length < 512 := h a (List.mem_cons_self _ _)
      rw [List.map_cons, List.flatten_cons, List.append_assoc, encodeBulk_append]
      rw [show (a :: as).length = as.length + 1 from rfl]
      rw [parse_args_step ha]
      rw [ih (fun x hx => h x (List.mem_cons_of_mem _ hx)) rest]
      simp only [Option.some.injEq, Prod.mk.injEq, List.length_append,
        encodeBulk_length, true_and]

theorem parse_args_encode_long :
    ∀ (args : List (List Char)), (∃ a ∈ args, 512 ≤ a.length) → ∀ rest,
      parse_args args.length ((args.map encodeBulk).flatten ++ rest) = none := by
  intro args
  induction args with
  | nil => intro h; obtain ⟨a, ha, _⟩ := h; cases ha
  | cons a as ih =>
      intro h rest
      rw [List.map_cons, List.flatten_cons, List.append_assoc, encodeBulk_append]
      rw [show (a :: as).length = as.length + 1 from rfl]
      by_cases hal : 512 ≤ a.length
      · rw [parse_args_step_long hal]
      · rw [parse_args_step (by omega) ]
        obtain ⟨x, hx, hxl⟩ := h
        rcases List.mem_cons.mp hx with hxa | hxm
        · subst hxa; omega
        · rw [ih ⟨x, hxm, hxl⟩ rest]

theorem encodeCommand_append (args : List (List Char)) (X : List Char) :
    encodeCommand args ++ X =
      '*' :: (natToChars args.length ++
        '\r' :: '\n' :: ((args.map encodeBulk).flatten ++ X)) := by
  simp [encodeCommand]

theorem encodeCommand_length (args : List (List Char)) :
    (encodeCommand args).length =
      (natToChars args.length).length + 3 + ((args.map encodeBulk).flatten).length := by
  simp [encodeCommand]
  omega

/-- A well-formed encoded frame at the front of the buffer parses exactly,
consuming precisely the frame's bytes, regardless of what follows. -/
theorem parse_encode {args : List (List Char)} (hwf : wfCmd args) (rest : List Char) :
    parse_resp_command (encodeCommand args ++ rest) 32 =
      some (args, (encodeCommand args).length) := by
  obtain ⟨h1, h2, h3⟩ := hwf
  have hD : 1 ≤ (natToChars args.length).length := by
    have := natToCharsFuel_ne_nil (Nat.lt_succ_self args.length)
    rcases hne : natToChars args.length with _ | ⟨c0, tl⟩
    · exact absurd hne this
    · simp
  rw [encodeCommand_append]
  have hat : atoiSigned (natToChars args.length ++
      '\r' :: '\n' :: ((args.map encodeBulk).flatten ++ rest)) = (args.length : Int) :=
    atoiSigned_natToChars _ (by decide) _
  have hcr : crlfIdx (natToChars args.length ++
      '\r' :: '\n' :: ((args.map encodeBulk).flatten ++ rest)) =
      some (natToChars args.length).length := crlfIdx_natToChars _ _
  have hdrop : (natToChars args.length ++
      '\r' :: '\n' :: ((args.map encodeBulk).flatten ++ rest)).drop
      ((natToChars args.length).length + 2) = (args.map encodeBulk).flatten ++ rest := by
    rw [drop_append_add]
    rfl
  rw [parse_resp_command]
  rw [if_neg (by simp; omega :
      ¬(('*' :: (natToChars args.length ++
        '\r' :: '\n' :: ((args.map encodeBulk).flatten ++ rest))).length < 4))]
  simp only [hcr, hat, hdrop]
  rw [if_pos trivial]
  rw [if_neg (by omega :
      ¬((args.length : Int) ≤ 0 ∨ (32 : Int) < (args.length : Int)))]
  rw [show ((args.length : Int)).toNat = args.length from Int.toNat_natCast _]
  rw [parse_args_encode args h3 rest]
  simp only [Option.some.injEq, Prod.mk.injEq, true_and]
  rw [encodeCommand_length]

/-- A frame that is well formed except for one argument of declared length
512 or more is rejected outright (same `-1` as an incomplete frame), no
matter how much more data follows. -/
theorem parse_encode_long {args : List (List Char)} (h1 : 0 < args.length)
    (h2 : args.length ≤ 32) (hlong : ∃ a ∈ args, 512 ≤ a.length) (rest : List Char) :
    parse_resp_command (encodeCommand args ++ rest) 32 = none := by
  have hD : 1 ≤ (natToChars args.length).length := by
    have := natToCharsFuel_ne_nil (Nat.lt_succ_self args.length)
    rcases hne : natToChars args.length with _ | ⟨c0, tl⟩
    · exact absurd hne this
    · simp
  rw [encodeCommand_append]
  have hat : atoiSigned (natToChars args.length ++
      '\r' :: '\n' :: ((args.map encodeBulk).flatten ++ rest)) = (args.length : Int) :=
    atoiSigned_natToChars _ (by decide) _
  have hcr : crlfIdx (natToChars args.length ++
      '\r' :: '\n' :: ((args.map encodeBulk).flatten ++ rest)) =
      some (natToChars args.length).length := crlfIdx_natToChars _ _
  have hdrop : (natToChars args.length ++
      '\r' :: '\n' :: ((args.map encodeBulk).flatten ++ rest)).drop
      ((natToChars args.length).length + 2) = (args.map encodeBulk).flatten ++ rest := by
    rw [drop_append_add]
    rfl
  rw [parse_resp_command]
  rw [if_neg (by simp; omega :
      ¬(('*' :: (natToChars args.length ++
        '\r' :: '\n' :: ((args.map encodeBulk).flatten ++ rest))).length < 4))]
  simp only [hcr, hat, hdrop]
  rw [if_pos trivial]
  rw [if_neg (by omega :
      ¬((args.length : Int) ≤ 0 ∨ (32 : Int) < (args.length : Int)))]
  rw [show ((args.length : Int)).toNat = args.length from Int.toNat_natCast _]
  rw [parse_args_encode_long args hlong rest]

/-- Any successful parse consumes at least one byte (the decode loop always
shrinks the buffer). -/
theorem parse_consumed_pos {buf : List Char} {m : Int} {as : List (List Char)}
    {c2 : Nat} (h : parse_resp_command buf m = some (as, c2)) : 1 ≤ c2 := by
  rw [parse_resp_command.eq_def] at h
  split at h
  · cases h
  · split at h
    · cases h
    · split at h
      · split at h
        · cases h
        · dsimp only at h
          split at h
          · cases h
          · split at h
            · cases h
            · simp only [Option.some.injEq, Prod.mk.injEq] at h
              omega
      · cases h

end ProductionRedis

/-! ### production-redis.c — dispatcher and connection handling -/

/-- Per-connection buffers of the C `Client` struct (the socket fd and the
output send cursor are transport plumbing and carry no protocol state). -/
structure Client where
  input_buffer : List Char
  output_buffer : List Char
deriving DecidableEq

namespace ProductionRedis

/-- `queue_response`: append a reply to the output buffer; if it would not
fit under `BUFFER_SIZE = 8192`, the whole reply is discarded. -/
def queue_response (c : Client) (data : List Char) : Client :=
  if c.output_buffer.length + data.length < 8192 then
    { c with output_buffer := c.output_buffer ++ data }
  else c

/-- Reply encoding `$<len>\r\n<bytes>\r\n` (the `snprintf` bulk replies). -/
def bulkReply (s : List Char) : List Char :=
  '$' :: (natToChars s.length ++ '\r' :: '\n' :: (s ++ ['\r', '\n']))

/-- Reply encoding `:<n>\r\n` for the DEL / EXISTS counters. -/
def intReply (n : Nat) : List Char := ':' :: (natToChars n ++ ['\r', '\n'])

/-- `process_command(client, args, argc)`: dispatch one decoded command.
Returns the updated store and the reply bytes the branch queues (each C
branch calls `queue_response` exactly once; `argc < 1` returns without
queueing, modelled as the empty reply). -/
def process_command (now : Int) (store : List KeyValue) (args : List (List Char)) :
    List KeyValue × List Char :=
  match args with
  | [] => (store, [])
  | cmd0 :: rest =>
      let cmd := cmd0.map toUpperC
      if cmd = "PING".toList then
        match rest with
        | m :: _ => (store, bulkReply m)
        | [] => (store, "+PONG\r\n".toList)
      else if cmd = "SET".toList then
        match rest with
        | k :: v :: rest2 =>
            let ttl : Int :=
              match rest2 with
              | ex :: tv :: _ =>
                  if ex.map toUpperC = "EX".toList then atoiSigned tv else 0
              | _ => 0
            (set_key k v ttl now store, "+OK\r\n".toList)
        | _ => (store, "-ERR wrong number of arguments for \x27set\x27 command\r\n".toList)
      else if cmd = "GET".toList then
        match rest with
        | k :: _ =>
            let r := get_key now k store
            match r.1 with
            | some v => (r.2, bulkReply v)
            | none => (r.2, "$-1\r\n".toList)
        | [] => (store, "-ERR wrong number of arguments for \x27get\x27 command\r\n".toList)
      else if cmd = "DEL".toList then
        match rest with
        | _ :: _ =>
            let r := del_loop now rest store
            (r.2, intReply r.1)
        | [] => (store, "-ERR wrong number of arguments for \x27del\x27 command\r\n".toList)
      else if cmd = "EXISTS".toList then
        match rest with
        | _ :: _ =>
            let r := exists_loop now rest store
            (r.2, intReply r.1)
        | [] => (store, "-ERR wrong number of arguments for \x27exists\x27 command\r\n".toList)
      else if cmd = "AUTH".toList then (store, "+OK\r\n".toList)
      else if cmd = "SELECT".toList then (store, "+OK\r\n".toList)
      else if cmd = "INFO".toList then
        (store, bulkReply ("# Server\r\nredis_version:7.0.0\r\nredis_mode:standalone\r\ntcp_port:6379\r\n".toList))
      else if cmd = "CLIENT".toList then
        match rest with
        | sub0 :: _ =>
            let sub := sub0.map toUpperC
            if sub = "SETNAME".toList then (store, "+OK\r\n".toList)
            else if sub = "LIST".toList then (store, "*0\r\n".toList)
            else if sub = "GETNAME".toList then (store, "$-1\r\n".toList)
            else (store, "+OK\r\n".toList)
        | [] => (store, "-ERR wrong number of arguments for \x27client\x27 command\r\n".toList)
      else if cmd = "COMMAND".toList then (store, "*0\r\n".toList)
      else if cmd = "QUIT".toList then (store, "+OK\r\n".toList)
      else (store, "-ERR unknown command \x27".toList ++ cmd ++ "\x27\r\n".toList)

/-- The `while (client->input_len > 0)` decode-dispatch loop of
`handle_client_data`, with explicit fuel (any fuel above the buffer length
is enough, since every successful parse consumes at least one byte). -/
def handle_loop (now : Int) : Nat → List KeyValue → Client → List KeyValue × Client
  | 0, s, c => (s, c)
  | fuel + 1, s, c =>
      if c.input_buffer = [] then (s, c)
      else
        match parse_resp_command c.input_buffer 32 with
        | some (args, consumed) =>
            let r := process_command now s args
            handle_loop now fuel r.1
              { queue_response c r.2 with
                  input_buffer := c.input_buffer.drop consumed }
        | none => (s, c)

/-- `handle_client_data`: run the decode-dispatch loop to completion. -/
def handle_client_data (now : Int) (s : List KeyValue) (c : Client) :
    List KeyValue × Client :=
  handle_loop now (c.input_buffer.length + 1) s c

/-- Sequential dispatch of a list of commands: the store threads through in
order and each command contributes its own reply, in order. -/
def dispatch_all (now : Int) : List (List (List Char)) → List KeyValue →
    List KeyValue × List (List Char)
  | [], s => (s, [])
  | a :: rest, s =>
      let r := process_command now s a
      let r2 := dispatch_all now rest r.1
      (r2.1, r.2 :: r2.2)

theorem handle_loop_fuel {now : Int} : ∀ (f1 : Nat) {f2 : Nat} {s : List KeyValue}
    {c : Client}, c.input_buffer.length < f1 → c.input_buffer.length < f2 →
    handle_loop now f1 s c = handle_loop now f2 s c := by
  intro f1
  induction f1 using Nat.strong_induction_on with
  | _ f1 ih =>
      intro f2 s c h1 h2
      rcases f1 with _ | f1a
      · omega
      rcases f2 with _ | f2a
      · omega
      rw [handle_loop, handle_loop]
      by_cases hempty : c.input_buffer = []
      · rw [if_pos hempty, if_pos hempty]
      · rw [if_neg hempty, if_neg hempty]
        rcases hp : parse_resp_command c.input_buffer 32 with _ | ⟨args, consumed⟩
        · rfl
        · have hc1 : 1 ≤ consumed := parse_consumed_pos hp
          have hnz : c.input_buffer.length ≠ 0 :=
            fun hz => hempty (List.length_eq_zero.mp hz)
          have hlen : (c.input_buffer.drop consumed).length < f1a := by
            rw [List.length_drop]
            omega
          have hlen2 : (c.input_buffer.drop consumed).length < f2a := by
            rw [List.length_drop]
            omega
          show handle_loop now f1a (process_command now s args).1
              { queue_response c (process_command now s args).2 with
                input_buffer := c.input_buffer.drop consumed } =
            handle_loop now f2a (process_command now s args).1
              { queue_response c (process_command now s args).2 with
                input_buffer := c.input_buffer.drop consumed }
          exact ih f1a (Nat.lt_succ_self f1a) hlen hlen2

/-- Dispatching one complete frame from the front of the input buffer:
the command is parsed, dispatched once, its reply queued, and exactly the
frame's bytes are dropped before the loop continues with the remainder. -/
theorem handle_step {now : Int} {args : List (List Char)} (hwf : wfCmd args)
    (s : List KeyValue) (cout : List Char) (rest : List Char) :
    handle_client_data now s ⟨encodeCommand args ++ rest, cout⟩ =
      handle_client_data now (process_command now s args).1
        { queue_response ⟨encodeCommand args ++ rest, cout⟩
            (process_command now s args).2 with
          input_buffer := rest } := by
  have hne : encodeCommand args ≠ [] := by simp [encodeCommand]
  have henc1 : 1 ≤ (encodeCommand args).length := by
    rcases he : encodeCommand args with _ | ⟨x, xs⟩
    · exact absurd he hne
    · simp
  rw [handle_client_data]
  rw [show (Client.mk (encodeCommand args ++ rest) cout).input_buffer =
      encodeCommand args ++ rest from rfl]
  rw [show (encodeCommand args ++ rest).length + 1 =
      ((encodeCommand args).length + rest.length) + 1 from by
    rw [List.length_append]]
  rw [handle_loop]
  rw [if_neg (show ¬((Client.mk (encodeCommand args ++ rest) cout).input_buffer = [])
      from by simp [hne])]
  rw [show parse_resp_command
        ((Client.mk (encodeCommand args ++ rest) cout).input_buffer) 32 =
      some (args, (encodeCommand args).length) from parse_encode hwf rest]
  show handle_loop now ((encodeCommand args).length + rest.length)
      (process_command now s args).1
      { queue_response ⟨encodeCommand args ++ rest, cout⟩
          (process_command now s args).2 with
        input_buffer := (encodeCommand args ++ rest).drop (encodeCommand args).length } =
    handle_client_data now (process_command now s args).1
      { queue_response ⟨encodeCommand args ++ rest, cout⟩
          (process_command now s args).2 with
        input_buffer := rest }
  rw [drop_append_exact]
  have hci : ({ queue_response ⟨encodeCommand args ++ rest, cout⟩
      (process_command now s args).2 with input_buffer := rest } : Client).input_buffer
      = rest := rfl
  rw [handle_client_data, hci]
  exact handle_loop_fuel _ (by rw [hci]; omega) (by rw [hci]; omega)

end ProductionRedis

namespace ProductionRedis

/-- When the parser reports `-1` (incomplete or malformed alike), the loop
does nothing at all: no dispatch, no reply, buffers untouched. -/
theorem handle_of_parse_none {now : Int} {s : List KeyValue} {c : Client}
    (h : parse_resp_command c.input_buffer 32 = none) :
    handle_client_data now s c = (s, c) := by
  rw [handle_client_data, handle_loop]
  by_cases hemp : c.input_buffer = []
  · rw [if_pos hemp]
  · rw [if_neg hemp, h]

/-- Pipelining: a buffer holding several complete frames back-to-back is
dispatched frame by frame, in order, in a single `handle_client_data` call;
the input is wholly consumed and the replies are queued in the same order. -/
theorem handle_pipeline {now : Int} :
    ∀ (cmds : List (List (List Char))) (s : List KeyValue) (c : Client),
      (∀ x ∈ cmds, wfCmd x) →
      c.input_buffer = (cmds.map encodeCommand).flatten →
      c.output_buffer.length + ((dispatch_all now cmds s).2.flatten).length < 8192 →
      handle_client_data now s c =
        ((dispatch_all now cmds s).1,
         ⟨[], c.output_buffer ++ (dispatch_all now cmds s).2.flatten⟩) := by
  intro cmds
  induction cmds with
  | nil =>
      intro s c _ hin hfit
      rcases c with ⟨cin, cout⟩
      simp only [List.map_nil, List.flatten_nil] at hin
      subst hin
      rw [handle_client_data, handle_loop, if_pos rfl]
      simp [dispatch_all]
  | cons a rest ih =>
      intro s c hwf hin hfit
      rcases c with ⟨cin, cout⟩
      simp only [List.map_cons, List.flatten_cons] at hin
      subst hin
      have hwfa : wfCmd a := hwf a (List.mem_cons_self _ _)
      have hwfr : ∀ x ∈ rest, wfCmd x := fun x hx => hwf x (List.mem_cons_of_mem _ hx)
      have hfit2 : cout.length +
          ((process_command now s a).2 ++
            ((dispatch_all now rest (process_command now s a).1).2.flatten)).length < 8192 := hfit
      rw [handle_step hwfa s cout ((rest.map encodeCommand).flatten)]
      have hq : queue_response
          ⟨encodeCommand a ++ (rest.map encodeCommand).flatten, cout⟩
          (process_command now s a).2 =
          ⟨encodeCommand a ++ (rest.map encodeCommand).flatten,
           cout ++ (process_command now s a).2⟩ := by
        rw [queue_response,
            if_pos (show (Client.mk (encodeCommand a ++ (rest.map encodeCommand).flatten)
                cout).output_buffer.length + (process_command now s a).2.length < 8192 from by
              have := hfit2
              simp only [List.length_append] at this ⊢
              omega)]
      rw [hq]
      rw [show ({ (Client.mk (encodeCommand a ++ (rest.map encodeCommand).flatten)
          (cout ++ (process_command now s a).2)) with
          input_buffer := (rest.map encodeCommand).flatten } : Client) =
        ⟨(rest.map encodeCommand).flatten, cout ++ (process_command now s a).2⟩ from rfl]
      rw [ih (process_command now s a).1
          ⟨(rest.map encodeCommand).flatten, cout ++ (process_command now s a).2⟩
          hwfr rfl
          (by
            have := hfit2
            simp only [List.length_append] at this ⊢
            omega)]
      show ((dispatch_all now rest (process_command now s a).1).1,
          Client.mk []
            ((cout ++ (process_command now s a).2) ++
              (dispatch_all now rest (process_command now s a).1).2.flatten)) =
        ((dispatch_all now rest (process_command now s a).1).1,
          Client.mk []
            (cout ++ ((process_command now s a).2 ++
              (dispatch_all now rest (process_command now s a).1).2.flatten)))
      rw [List.append_assoc]

end ProductionRedis

/-! ### mini-redis.c — KEYS pattern matching -/

/-- Does `hay` start with `needle` (the per-offset comparison of `strstr`)? -/
def startsWithB : List Char → List Char → Bool
  | _, [] => true
  | [], _ :: _ => false
  | h :: hs, n :: ns => decide (h = n) && startsWithB hs ns

/-- C `strstr(hay, needle) != NULL`: `needle` occurs in `hay`. -/
def strstrB : List Char → List Char → Bool
  | [], needle => startsWithB [] needle
  | h :: hs, needle => startsWithB (h :: hs) needle || strstrB hs needle

theorem startsWithB_iff : ∀ (hay needle : List Char),
    startsWithB hay needle = true ↔
      needle.length ≤ hay.length ∧ hay.take needle.length = needle := by
  intro hay
  induction hay with
  | nil =>
      intro needle
      rcases needle with _ | ⟨n, ns⟩
      · simp [startsWithB]
      · simp [startsWithB]
  | cons h hs ih =>
      intro needle
      rcases needle with _ | ⟨n, ns⟩
      · simp [startsWithB]
      · rw [startsWithB]
        simp only [List.length_cons, List.take_succ_cons, Bool.and_eq_true,
          decide_eq_true_eq, List.cons.injEq, ih ns]
        constructor
        · rintro ⟨hh, hlen, htake⟩
          exact ⟨by omega, hh, htake⟩
        · rintro ⟨hlen, hh, htake⟩
          exact ⟨hh, by omega, htake⟩

theorem strstrB_iff : ∀ (hay needle : List Char),
    strstrB hay needle = true ↔
      ∃ i, i + needle.length ≤ hay.length ∧
        (hay.drop i).take needle.length = needle := by
  intro hay
  induction hay with
  | nil =>
      intro needle
      rw [strstrB, startsWithB_iff]
      constructor
      · rintro ⟨hlen, htake⟩
        refine ⟨0, ?_, by simpa using htake⟩
        simpa using hlen
      · rintro ⟨i, hlen, htake⟩
        simp only [List.length_nil] at hlen
        have hn : needle.length = 0 := by omega
        refine ⟨by simp [hn], ?_⟩
        simp only [List.drop_nil] at htake
        simpa using htake
  | cons h hs ih =>
      intro needle
      rw [strstrB, Bool.or_eq_true, startsWithB_iff, ih]
      constructor
      · rintro (⟨hlen, htake⟩ | ⟨i, hlen, htake⟩)
        · exact ⟨0, by simpa using hlen, by simpa using htake⟩
        · exact ⟨i + 1, by simp; omega, by simpa using htake⟩
      · rintro ⟨i, hlen, htake⟩
        rcases i with _ | i2
        · exact Or.inl ⟨by simpa using hlen, by simpa using htake⟩
        · exact Or.inr ⟨i2, by simp at hlen; omega, by simpa using htake⟩

namespace MiniRedis

/-- The KEYS match test of `process_command`:
`strcmp(pattern, "*") == 0 || strstr(store[i].key, pattern)`. -/
def keysMatch (pattern : List Char) (e : KeyValue) : Bool :=
  decide (pattern = "*".toList) || strstrB e.key pattern

/-- The ordered key list the KEYS branch emits (count pass and emit pass use
the same test, so one filter describes both). -/
def keysMatching (pattern : List Char) (store : List KeyValue) : List (List Char) :=
  (store.filter (keysMatch pattern)).map (·.key)

/-- The full KEYS reply bytes: `*<count>\r\n` then one bulk string per key. -/
def keys_command (pattern : List Char) (store : List KeyValue) : List Char :=
  ('*' :: (natToChars (store.filter (keysMatch pattern)).length ++ ['\r', '\n'])) ++
    ((store.filter (keysMatch pattern)).map
      (fun e => ProductionRedis.bulkReply e.key)).flatten

/-- Modelled from the spec for comparison with the code: `keys_matching`
as the claim states it, with a lazy-expiry check on every visited key so
that no expired key is returned.  The code's `keysMatching` above has no
such check; the two disagree on stores holding an expired entry. -/
def keys_matching_claim (now : Int) (pattern : List Char)
    (store : List KeyValue) : List (List Char) :=
  (store.filter (fun e =>
    !(decide (0 < e.ttl) && decide (e.ttl < now)) && keysMatch pattern e)).map (·.key)

end MiniRedis

namespace ProductionRedis

/-- Modelled from the spec claim for comparison with the code: queueing a
reply that does not fit keeps the portion that fits under the cap and drops
only the excess bytes.  The code's `queue_response` instead drops the whole
reply; the two disagree whenever some but not all of a reply would fit. -/
def queue_response_claim (c : Client) (data : List Char) : Client :=
  { c with output_buffer :=
      c.output_buffer ++ data.take (8191 - c.output_buffer.length) }

end ProductionRedis

/-! ### Claim theorems -/

/-- C1: for every key `k` and value `v` with no TTL, on a store with unique
keys and free capacity, `set_key(k, v, 0)` followed by `get_key(k)` returns
exactly `v`; after `delete_key(k)` a `get_key(k)` returns absent (the null
bulk case) and the `EXISTS` test `find_key(k) >= 0` is false. -/
theorem c1_round_trip (k v : List Char) (now t t2 t3 : Int) (s : List KeyValue)
    (hnd : nodupKeys s) (hcap : s.length < 10000) :
    (ProductionRedis.get_key t k (ProductionRedis.set_key k v 0 now s)).1 = some v ∧
    (ProductionRedis.get_key t3 k
      (ProductionRedis.delete_key t2 k (ProductionRedis.set_key k v 0 now s)).2).1 = none ∧
    ((ProductionRedis.find_key t3 k
      (ProductionRedis.delete_key t2 k (ProductionRedis.set_key k v 0 now s)).2).1).isSome
      = false := by
  have hf1 : firstK k (ProductionRedis.set_key k v 0 now s) =
      some ⟨k, v, 0⟩ := by
    have := @ProductionRedis.firstK_set_key k v 0 now s hnd hcap
    simpa using this
  have hnd1 : nodupKeys (ProductionRedis.set_key k v 0 now s) :=
    ProductionRedis.nodupKeys_set_key hnd
  have hlive : ∀ tt : Int, ¬(0 < (KeyValue.mk k v 0).ttl ∧
      (KeyValue.mk k v 0).ttl ≤ tt) := by
    intro tt h
    simp at h
  refine ⟨?_, ?_, ?_⟩
  · rw [ProductionRedis.get_key_of_first_live hf1 (hlive t)]
  · rw [ProductionRedis.delete_key_of_first_live hf1 (hlive t2)]
    exact (ProductionRedis.get_key_of_first_none
      (firstK_eq_none_of_not_mem (not_mem_storeKeys_dropK hnd1))).symm ▸ rfl
  · rw [ProductionRedis.delete_key_of_first_live hf1 (hlive t2)]
    rw [ProductionRedis.find_key_of_first_none
      (firstK_eq_none_of_not_mem (not_mem_storeKeys_dropK hnd1))]
    rfl

/-- C1 witness: the round trip at concrete inputs on the empty store. -/
theorem c1_round_trip_witness :
    nodupKeys ([] : List KeyValue) ∧ ([] : List KeyValue).length < 10000 ∧
    ((ProductionRedis.get_key 0 ("k".toList)
        (ProductionRedis.set_key ("k".toList) ("v".toList) 0 0 [])).1 =
      some ("v".toList) ∧
     (ProductionRedis.get_key 0 ("k".toList)
        (ProductionRedis.delete_key 0 ("k".toList)
          (ProductionRedis.set_key ("k".toList) ("v".toList) 0 0 [])).2).1 = none ∧
     ((ProductionRedis.find_key 0 ("k".toList)
        (ProductionRedis.delete_key 0 ("k".toList)
          (ProductionRedis.set_key ("k".toList) ("v".toList) 0 0 [])).2).1).isSome
        = false) :=
  ⟨by decide, by decide,
   c1_round_trip ("k".toList) ("v".toList) 0 0 0 0 [] (by decide) (by decide)⟩

/-- C2: setting a key with a positive TTL at time `now` stores expiry
`now + ttl`.  Any `get` strictly before that timestamp returns the value (in
both servers).  At every observation strictly after it, `get` returns null,
the `EXISTS` test is false, and that very access evicts the expired entry
from the store — lazy expiry runs first, and no expired value is ever
returned. -/
theorem c2_ttl_expiry (k v : List Char) (tls now : Int) (sP sM : List KeyValue)
    (hndP : nodupKeys sP) (hcapP : sP.length < 10000)
    (hndM : nodupKeys sM) (hcapM : sM.length < 1000)
    (htls : 0 < tls) (hnow : 0 ≤ now) :
    (∀ t, t < now + tls →
      (ProductionRedis.get_key t k (ProductionRedis.set_key k v tls now sP)).1 =
        some v ∧
      (MiniRedis.get_key t k (MiniRedis.set_key k v tls now sM)).1 = some v) ∧
    (∀ t, now + tls < t →
      (ProductionRedis.get_key t k (ProductionRedis.set_key k v tls now sP)).1 =
        none ∧
      ((ProductionRedis.find_key t k
        (ProductionRedis.set_key k v tls now sP)).1).isSome = false ∧
      k ∉ storeKeys (ProductionRedis.get_key t k
        (ProductionRedis.set_key k v tls now sP)).2 ∧
      (MiniRedis.get_key t k (MiniRedis.set_key k v tls now sM)).1 = none ∧
      (MiniRedis.exists_key t k (MiniRedis.set_key k v tls now sM)).1 = false ∧
      k ∉ storeKeys (MiniRedis.get_key t k
        (MiniRedis.set_key k v tls now sM)).2) := by
  have hfP : firstK k (ProductionRedis.set_key k v tls now sP) =
      some ⟨k, v, now + tls⟩ := by
    have := @ProductionRedis.firstK_set_key k v tls now sP hndP hcapP
    rwa [if_pos htls] at this
  have hfM : firstK k (MiniRedis.set_key k v tls now sM) =
      some ⟨k, v, now + tls⟩ := by
    have := @MiniRedis.firstK_set_keyM k v tls now sM hndM hcapM
    rwa [if_pos htls] at this
  have hndP1 : nodupKeys (ProductionRedis.set_key k v tls now sP) :=
    ProductionRedis.nodupKeys_set_key hndP
  have hndM1 : nodupKeys (MiniRedis.set_key k v tls now sM) :=
    MiniRedis.nodupKeys_set_keyM hndM
  constructor
  · intro t ht
    constructor
    · rw [ProductionRedis.get_key_of_first_live hfP
        (by simp only []; omega)]
    · rw [MiniRedis.get_key_of_first_liveM hfM
        (by simp only []; omega)]
  · intro t ht
    have hxP : 0 < (KeyValue.mk k v (now + tls)).ttl ∧
        (KeyValue.mk k v (now + tls)).ttl ≤ t := by
      constructor <;> [skip; skip] <;> simp only [] <;> omega
    have hxM : 0 < (KeyValue.mk k v (now + tls)).ttl ∧
        (KeyValue.mk k v (now + tls)).ttl < t := by
      constructor <;> [skip; skip] <;> simp only [] <;> omega
    refine ⟨?_, ?_, ?_, ?_, ?_, ?_⟩
    · rw [ProductionRedis.get_key_of_first_exp hfP hxP]
    · rw [ProductionRedis.find_key_of_first_exp hfP hxP]
      rfl
    · rw [ProductionRedis.get_key_of_first_exp hfP hxP]
      exact not_mem_storeKeys_dropK hndP1
    · rw [MiniRedis.get_key_of_first_expM hfM hxM]
    · rw [MiniRedis.exists_key_of_first_exp hfM hxM]
    · rw [MiniRedis.get_key_of_first_expM hfM hxM]
      exact not_mem_storeKeys_dropK hndM1

/-- C2 witness: `SET k v EX 1` at time 0 on both empty stores; reads at
times 0 (before expiry) and 5 (after expiry). -/
theorem c2_ttl_expiry_witness :
    nodupKeys ([] : List KeyValue) ∧ ((0:Int) < 1) ∧
    (ProductionRedis.get_key 0 ("k".toList)
      (ProductionRedis.set_key ("k".toList) ("v".toList) 1 0 [])).1 =
        some ("v".toList) ∧
    (MiniRedis.get_key 0 ("k".toList)
      (MiniRedis.set_key ("k".toList) ("v".toList) 1 0 [])).1 = some ("v".toList) ∧
    (ProductionRedis.get_key 5 ("k".toList)
      (ProductionRedis.set_key ("k".toList) ("v".toList) 1 0 [])).1 = none ∧
    ((ProductionRedis.find_key 5 ("k".toList)
      (ProductionRedis.set_key ("k".toList) ("v".toList) 1 0 [])).1).isSome = false ∧
    ("k".toList) ∉ storeKeys (ProductionRedis.get_key 5 ("k".toList)
      (ProductionRedis.set_key ("k".toList) ("v".toList) 1 0 [])).2 ∧
    (MiniRedis.get_key 5 ("k".toList)
      (MiniRedis.set_key ("k".toList) ("v".toList) 1 0 [])).1 = none ∧
    (MiniRedis.exists_key 5 ("k".toList)
      (MiniRedis.set_key ("k".toList) ("v".toList) 1 0 [])).1 = false ∧
    ("k".toList) ∉ storeKeys (MiniRedis.get_key 5 ("k".toList)
      (MiniRedis.set_key ("k".toList) ("v".toList) 1 0 [])).2 := by
  have h := c2_ttl_expiry ("k".toList) ("v".toList) 1 0 [] []
    (by decide) (by decide) (by decide) (by decide) (by decide) (by decide)
  have ha := h.1 0 (by decide)
  have hb := h.2 5 (by decide)
  exact ⟨by decide, by decide, ha.1, ha.2, hb.1, hb.2.1, hb.2.2.1,
    hb.2.2.2.1, hb.2.2.2.2.1, hb.2.2.2.2.2⟩

/-- C3: a buffer holding two or more complete encoded commands back-to-back
is handled in one `handle_client_data` call: each frame parses to exactly its
own bytes (`consumed` equals the frame length, so exactly that many bytes are
dropped before the next decode), each command is dispatched exactly once in
arrival order (`dispatch_all` threads the store left to right), and the
replies are queued in the same order, all before any further I/O. -/
theorem c3_pipelining (now : Int) (cmds : List (List (List Char)))
    (s : List KeyValue) (c : Client)
    (_hlen : 2 ≤ cmds.length) (hwf : ∀ x ∈ cmds, ProductionRedis.wfCmd x)
    (hin : c.input_buffer = (cmds.map ProductionRedis.encodeCommand).flatten)
    (hfit : c.output_buffer.length +
      (((ProductionRedis.dispatch_all now cmds s).2).flatten).length < 8192) :
    (∀ (a : List (List Char)) (rest2 : List Char), ProductionRedis.wfCmd a →
      ProductionRedis.parse_resp_command
        (ProductionRedis.encodeCommand a ++ rest2) 32 =
        some (a, (ProductionRedis.encodeCommand a).length)) ∧
    ProductionRedis.handle_client_data now s c =
      ((ProductionRedis.dispatch_all now cmds s).1,
       ⟨[], c.output_buffer ++
          ((ProductionRedis.dispatch_all now cmds s).2).flatten⟩) :=
  ⟨fun _ rest2 hw => ProductionRedis.parse_encode hw rest2,
   ProductionRedis.handle_pipeline cmds s c hwf hin hfit⟩

/-- C3 witness: two pipelined `PING` frames in one buffer produce the two
`+PONG` replies in order and leave the input empty. -/
theorem c3_pipelining_witness :
    2 ≤ ([["PING".toList], ["PING".toList]] : List (List (List Char))).length ∧
    ProductionRedis.parse_resp_command
      (ProductionRedis.encodeCommand ["PING".toList] ++
        ProductionRedis.encodeCommand ["PING".toList]) 32 =
      some (["PING".toList],
        (ProductionRedis.encodeCommand ["PING".toList]).length) ∧
    ProductionRedis.handle_client_data 0 []
      ⟨([["PING".toList], ["PING".toList]].map
          ProductionRedis.encodeCommand).flatten, []⟩ =
      ((ProductionRedis.dispatch_all 0 [["PING".toList], ["PING".toList]] []).1,
       ⟨[], [] ++ ((ProductionRedis.dispatch_all 0
          [["PING".toList], ["PING".toList]] []).2).flatten⟩) := by
  have h := c3_pipelining 0 [["PING".toList], ["PING".toList]] []
    ⟨([["PING".toList], ["PING".toList]].map ProductionRedis.encodeCommand).flatten, []⟩
    (by decide)
    (by
      intro x hx
      simp only [List.mem_cons, List.mem_singleton, List.not_mem_nil, or_false] at hx
      rcases hx with h1 | h1 <;> subst h1 <;> decide)
    rfl (by decide)
  exact ⟨by decide,
    h.1 ["PING".toList] (ProductionRedis.encodeCommand ["PING".toList]) (by decide),
    h.2⟩

/-- C4 counterexample: the production decoder does NOT classify malformed
frames separately from incomplete ones, and the connection manager surfaces
no error reply.  `"PING\r\n"` (leading byte not `*`) gets the same return
code (-1, here `none`) as the genuinely incomplete `"*2\r\n"`, and
`handle_client_data` on the malformed buffer queues nothing and leaves the
buffer exactly as it was. -/
theorem c4_counterexample :
    ProductionRedis.parse_resp_command ("PING\r\n".toList) 32 = none ∧
    ProductionRedis.parse_resp_command ("*2\r\n".toList) 32 = none ∧
    ProductionRedis.handle_client_data 0 [] ⟨"PING\r\n".toList, []⟩ =
      ([], ⟨"PING\r\n".toList, []⟩) := by
  refine ⟨by decide, by decide, ?_⟩
  exact ProductionRedis.handle_of_parse_none (by decide)

/-- C4 amended: every malformed-frame condition of the claim (leading byte
not `*`; `argc <= 0` or `argc` above `MAX_ARGS = 32`; a `$` length marker
missing or negative) makes `parse_resp_command` return the single failure
code `none` — the very code used for an incomplete frame — and on that code
the connection manager dispatches nothing, queues no reply (so no RESP error
is surfaced), and leaves the input buffer untouched, waiting for more bytes;
the connection stays open. -/
theorem c4_malformed_amended (now : Int) (s : List KeyValue) :
    (∀ buf : List Char, buf.head? ≠ some '*' →
      ProductionRedis.parse_resp_command buf 32 = none) ∧
    (∀ s1 : List Char, (atoiSigned s1 ≤ 0 ∨ (32 : Int) < atoiSigned s1) →
      ProductionRedis.parse_resp_command ('*' :: s1) 32 = none) ∧
    (∀ (s1 : List Char) (k : Nat), crlfIdx s1 = some k → 0 < atoiSigned s1 →
      atoiSigned s1 ≤ 32 → (s1.drop (k + 2)).head? ≠ some '$' →
      ProductionRedis.parse_resp_command ('*' :: s1) 32 = none) ∧
    (∀ (s1 : List Char) (k : Nat) (s2 : List Char) (k2 : Nat),
      crlfIdx s1 = some k → 0 < atoiSigned s1 → atoiSigned s1 ≤ 32 →
      s1.drop (k + 2) = '$' :: s2 → crlfIdx s2 = some k2 → atoiSigned s2 < 0 →
      ProductionRedis.parse_resp_command ('*' :: s1) 32 = none) ∧
    (∀ c : Client, ProductionRedis.parse_resp_command c.input_buffer 32 = none →
      ProductionRedis.handle_client_data now s c = (s, c)) := by
  refine ⟨?_, ?_, ?_, ?_, ?_⟩
  · intro buf hh
    rw [ProductionRedis.parse_resp_command.eq_def]
    split
    · rfl
    · rcases buf with _ | ⟨c0, s1⟩
      · rfl
      · dsimp only
        rw [if_neg (show ¬(c0 = '*') from fun hc => hh (by rw [hc]; rfl))]
  · intro s1 hargc
    rw [ProductionRedis.parse_resp_command]
    split
    · rfl
    · rw [if_pos rfl]
      rcases hcr : crlfIdx s1 with _ | k
      · rfl
      · dsimp only
        rw [if_pos hargc]
  · intro s1 k hcr hpos hle hhd
    rw [ProductionRedis.parse_resp_command]
    split
    · rfl
    · rw [if_pos rfl, hcr]
      dsimp only
      rw [if_neg (by omega : ¬(atoiSigned s1 ≤ 0 ∨ (32:Int) < atoiSigned s1))]
      have htn : ∃ m, (atoiSigned s1).toNat = m + 1 := by
        have : 0 < (atoiSigned s1).toNat := by omega
        exact ⟨(atoiSigned s1).toNat - 1, by omega⟩
      obtain ⟨m, hm⟩ := htn
      rw [hm]
      rcases hd : s1.drop (k + 2) with _ | ⟨c0, s2⟩
      · rw [ProductionRedis.parse_args]
      · rw [ProductionRedis.parse_args]
        rw [if_neg (fun hc => hhd (by rw [hd, hc]; rfl))]
  · intro s1 k s2 k2 hcr hpos hle hd hcr2 hneg
    rw [ProductionRedis.parse_resp_command]
    split
    · rfl
    · rw [if_pos rfl, hcr]
      dsimp only
      rw [if_neg (by omega : ¬(atoiSigned s1 ≤ 0 ∨ (32:Int) < atoiSigned s1))]
      have htn : ∃ m, (atoiSigned s1).toNat = m + 1 := by
        have : 0 < (atoiSigned s1).toNat := by omega
        exact ⟨(atoiSigned s1).toNat - 1, by omega⟩
      obtain ⟨m, hm⟩ := htn
      rw [hm, hd, ProductionRedis.parse_args, if_pos rfl, hcr2]
      dsimp only
      rw [if_pos hneg]
  · intro c hc
    exact ProductionRedis.handle_of_parse_none hc

/-- C4 amended witness: concrete malformed buffers of each class all yield
the shared failure code, and the loop leaves a malformed buffer untouched. -/
theorem c4_malformed_amended_witness :
    ("PING\r\n".toList).head? ≠ some '*' ∧
    ProductionRedis.parse_resp_command ("PING\r\n".toList) 32 = none ∧
    (atoiSigned ("0\r\nx".toList) ≤ 0 ∨ (32 : Int) < atoiSigned ("0\r\nx".toList)) ∧
    ProductionRedis.parse_resp_command ('*' :: "0\r\nx".toList) 32 = none ∧
    ProductionRedis.parse_resp_command ('*' :: "1\r\nX0\r\n".toList) 32 = none ∧
    ProductionRedis.parse_resp_command ('*' :: "1\r\n$-4\r\nABCDEF".toList) 32 = none ∧
    ProductionRedis.handle_client_data 7 [] ⟨"*0\r\nZZ".toList, []⟩ =
      ([], ⟨"*0\r\nZZ".toList, []⟩) := by
  have h := c4_malformed_amended 7 ([] : List KeyValue)
  refine ⟨by decide, h.1 ("PING\r\n".toList) (by decide), by decide,
    h.2.1 ("0\r\nx".toList) (by decide), ?_, ?_, ?_⟩
  · exact h.2.2.1 ("1\r\nX0\r\n".toList) 1 (by decide) (by decide) (by decide) (by decide)
  · exact h.2.2.2.1 ("1\r\n$-4\r\nABCDEF".toList) 1 ("-4\r\nABCDEF".toList) 2
      (by decide) (by decide) (by decide) (by decide) (by decide) (by decide)
  · exact h.2.2.2.2 ⟨"*0\r\nZZ".toList, []⟩ (by decide)

/-- C5: when the store already holds its full capacity of 10000 entries and
key `k` is absent, `set_key` is a silent no-op — the store is left completely
unchanged — yet the `SET` dispatch branch still replies `+OK`. -/
theorem c5_capacity_silent_noop (k v : List Char) (tls now : Int)
    (s : List KeyValue) (rest2 : List (List Char))
    (hfull : s.length = 10000) (habs : k ∉ storeKeys s) :
    ProductionRedis.set_key k v tls now s = s ∧
    ProductionRedis.process_command now s ("SET".toList :: k :: v :: rest2) =
      (s, "+OK\r\n".toList) := by
  have hf : firstK k s = none := firstK_eq_none_of_not_mem habs
  have hset : ∀ tl : Int, ProductionRedis.set_key k v tl now s = s := by
    intro tl
    rw [ProductionRedis.set_key_of_first_none hf, if_neg (by omega)]
  refine ⟨hset tls, ?_⟩
  show (ProductionRedis.set_key k v
      (match rest2 with
       | ex :: tv :: _ =>
           if ex.map toUpperC = "EX".toList then atoiSigned tv else 0
       | _ => 0) now s, "+OK\r\n".toList) = (s, "+OK\r\n".toList)
  rw [hset]

/-- C5 witness: a full store of 10000 entries under key `a`; `SET b v` leaves
it unchanged and still replies `+OK`. -/
theorem c5_capacity_silent_noop_witness :
    (List.replicate 10000 (KeyValue.mk ['a'] ['x'] 0)).length = 10000 ∧
    (['b'] ∉ storeKeys (List.replicate 10000 (KeyValue.mk ['a'] ['x'] 0))) ∧
    ProductionRedis.set_key ['b'] ['v'] 0 0
      (List.replicate 10000 (KeyValue.mk ['a'] ['x'] 0)) =
      List.replicate 10000 (KeyValue.mk ['a'] ['x'] 0) ∧
    ProductionRedis.process_command 0
      (List.replicate 10000 (KeyValue.mk ['a'] ['x'] 0))
      ("SET".toList :: ['b'] :: ['v'] :: []) =
      (List.replicate 10000 (KeyValue.mk ['a'] ['x'] 0), "+OK\r\n".toList) := by
  have hfull : (List.replicate 10000 (KeyValue.mk ['a'] ['x'] 0)).length = 10000 := by
    rw [List.length_replicate]
  have habs : ['b'] ∉ storeKeys (List.replicate 10000 (KeyValue.mk ['a'] ['x'] 0)) := by
    intro hmem
    rw [storeKeys, List.map_replicate] at hmem
    rw [List.mem_replicate] at hmem
    exact absurd hmem.2 (by decide)
  have h := c5_capacity_silent_noop ['b'] ['v'] 0 0
    (List.replicate 10000 (KeyValue.mk ['a'] ['x'] 0)) [] hfull habs
  exact ⟨hfull, habs, h.1, h.2⟩

/-- C6: on a store with unique keys, the `DEL` dispatch replies the integer
count of distinct provided keys that were live at entry — a duplicate key
counts only for its first, successful deletion, and a second delete of an
already-removed key returns false and changes nothing — while the `EXISTS`
dispatch replies the integer count (with multiplicity) of provided keys that
exist. -/
theorem c6_multikey_del_exists (now : Int) (s : List KeyValue)
    (hnd : nodupKeys s) (k1 : List Char) (ks : List (List Char)) :
    (ProductionRedis.process_command now s ("DEL".toList :: k1 :: ks)).2 =
      ProductionRedis.intReply
        (((k1 :: ks).dedup).filter (fun j => ProductionRedis.liveB now s j)).length ∧
    (ProductionRedis.process_command now s ("EXISTS".toList :: k1 :: ks)).2 =
      ProductionRedis.intReply
        ((k1 :: ks).filter (fun j => ProductionRedis.liveB now s j)).length ∧
    (∀ (k : List Char) (s2 s3 : List KeyValue), nodupKeys s2 →
      ProductionRedis.delete_key now k s2 = (true, s3) →
      ProductionRedis.delete_key now k s3 = (false, s3)) := by
  refine ⟨?_, ?_, ?_⟩
  · show (ProductionRedis.intReply (ProductionRedis.del_loop now (k1 :: ks) s).1) = _
    rw [ProductionRedis.del_loop_count (k1 :: ks) hnd]
  · show (ProductionRedis.intReply (ProductionRedis.exists_loop now (k1 :: ks) s).1) = _
    rw [ProductionRedis.exists_loop_count (k1 :: ks) hnd]
  · intro k s2 s3 hnd2 hdel
    exact ProductionRedis.delete_key_twice hnd2 hdel

/-- C6 witness: with `a` and `b` set, `DEL a b c` counts 2 (and a duplicate
`DEL a a b` also counts 2); `EXISTS a b c` after deletion counts 0. -/
theorem c6_multikey_del_exists_witness :
    nodupKeys [KeyValue.mk ['a'] ['1'] 0, KeyValue.mk ['b'] ['2'] 0] ∧
    (ProductionRedis.process_command 0
      [KeyValue.mk ['a'] ['1'] 0, KeyValue.mk ['b'] ['2'] 0]
      ("DEL".toList :: [['a'], ['b'], ['c']])).2 =
      ProductionRedis.intReply 2 ∧
    (ProductionRedis.process_command 0
      [KeyValue.mk ['a'] ['1'] 0, KeyValue.mk ['b'] ['2'] 0]
      ("DEL".toList :: [['a'], ['a'], ['b']])).2 =
      ProductionRedis.intReply 2 ∧
    (ProductionRedis.process_command 0 ([] : List KeyValue)
      ("EXISTS".toList :: [['a'], ['b'], ['c']])).2 =
      ProductionRedis.intReply 0 ∧
    ProductionRedis.delete_key 0 ['a']
      (ProductionRedis.delete_key 0 ['a']
        [KeyValue.mk ['a'] ['1'] 0, KeyValue.mk ['b'] ['2'] 0]).2 =
      (false, (ProductionRedis.delete_key 0 ['a']
        [KeyValue.mk ['a'] ['1'] 0, KeyValue.mk ['b'] ['2'] 0]).2) := by
  have h1 := c6_multikey_del_exists 0
    [KeyValue.mk ['a'] ['1'] 0, KeyValue.mk ['b'] ['2'] 0] (by decide) ['a'] [['b'], ['c']]
  have h2 := c6_multikey_del_exists 0
    [KeyValue.mk ['a'] ['1'] 0, KeyValue.mk ['b'] ['2'] 0] (by decide) ['a'] [['a'], ['b']]
  have h3 := c6_multikey_del_exists 0 ([] : List KeyValue) (by decide) ['a'] [['b'], ['c']]
  refine ⟨by decide, ?_, ?_, ?_, ?_⟩
  · rw [h1.1]
    decide
  · rw [h2.1]
    decide
  · rw [h3.2.1]
    decide
  · exact h1.2.2 ['a'] [KeyValue.mk ['a'] ['1'] 0, KeyValue.mk ['b'] ['2'] 0]
      [KeyValue.mk ['b'] ['2'] 0] (by decide) (by decide)

/-- C7 counterexample: mini-redis's `KEYS` loop performs NO lazy-expiry
check.  With a single entry `foo` whose ttl `5` has long passed at time
`100`, `KEYS *` still lists `foo`; the claim's `keys_matching` (modelled as
stated, with the per-key expiry check) returns the empty list instead. -/
theorem c7_counterexample :
    (0 < (5 : Int) ∧ (5 : Int) < 100) ∧
    MiniRedis.keysMatching ("*".toList)
      [KeyValue.mk ("foo".toList) ['x'] 5] = ["foo".toList] ∧
    MiniRedis.keys_matching_claim 100 ("*".toList)
      [KeyValue.mk ("foo".toList) ['x'] 5] = [] ∧
    MiniRedis.keysMatching ("*".toList)
        [KeyValue.mk ("foo".toList) ['x'] 5] ≠
      MiniRedis.keys_matching_claim 100 ("*".toList)
        [KeyValue.mk ("foo".toList) ['x'] 5] := by
  refine ⟨by decide, by decide, by decide, by decide⟩

/-- C7 amended: `KEYS` returns exactly the STORED keys matching the pattern
— every key for `*`, literal-substring matches otherwise — in insertion
order, with no expiry check whatsoever (an expired, not-yet-evicted key does
appear, as the counterexample shows).  The reply is the array header with
the match count followed by each matching key as a bulk string, in store
order. -/
theorem c7_keys_amended (pattern : List Char) (s : List KeyValue) :
    MiniRedis.keys_command pattern s =
      ('*' :: (natToChars (MiniRedis.keysMatching pattern s).length ++ ['\r', '\n'])) ++
        ((MiniRedis.keysMatching pattern s).map ProductionRedis.bulkReply).flatten ∧
    (MiniRedis.keysMatching pattern s).Sublist (storeKeys s) ∧
    (∀ k2, k2 ∈ MiniRedis.keysMatching pattern s ↔
      ∃ e, e ∈ s ∧ e.key = k2 ∧
        (pattern = "*".toList ∨
          ∃ i, i + pattern.length ≤ k2.length ∧
            (k2.drop i).take pattern.length = pattern)) := by
  refine ⟨?_, ?_, ?_⟩
  · rw [MiniRedis.keys_command, MiniRedis.keysMatching,
        List.length_map, List.map_map]
    rfl
  · rw [MiniRedis.keysMatching, storeKeys]
    exact (List.filter_sublist s).map (·.key)
  · intro k2
    rw [MiniRedis.keysMatching]
    constructor
    · intro hm
      rw [List.mem_map] at hm
      obtain ⟨e, he, hek⟩ := hm
      rw [List.mem_filter] at he
      refine ⟨e, he.1, hek, ?_⟩
      have hmatch := he.2
      rw [MiniRedis.keysMatch, Bool.or_eq_true, decide_eq_true_eq] at hmatch
      rcases hmatch with hstar | hsub
      · exact Or.inl hstar
      · right
        rw [← hek]
        exact (strstrB_iff e.key pattern).mp hsub
    · rintro ⟨e, hes, hek, hcond⟩
      rw [List.mem_map]
      refine ⟨e, ?_, hek⟩
      rw [List.mem_filter]
      refine ⟨hes, ?_⟩
      rw [MiniRedis.keysMatch, Bool.or_eq_true, decide_eq_true_eq]
      rcases hcond with hstar | ⟨i, hl, ht⟩
      · exact Or.inl hstar
      · right
        rw [strstrB_iff]
        rw [hek]
        exact ⟨i, hl, ht⟩

/-- How many entries of the store carry key `k` (a direct filter count,
used to state "exactly one entry for k"). -/
def countKey (k : List Char) (s : List KeyValue) : Nat :=
  ((storeKeys s).filter (fun x => decide (x = k))).length

theorem length_filter_eq_one {α : Type} [DecidableEq α] {a : α} :
    ∀ {l : List α}, l.Nodup → a ∈ l →
      (l.filter (fun x => decide (x = a))).length = 1 := by
  intro l
  induction l with
  | nil => intro _ hm; cases hm
  | cons b tl ih =>
      intro hnd hm
      rw [List.nodup_cons] at hnd
      by_cases hba : b = a
      · subst hba
        rw [List.filter_cons, if_pos (by simp)]
        have hz : tl.filter (fun x => decide (x = b)) = [] := by
          rw [List.filter_eq_nil_iff]
          intro x hx
          simp only [decide_eq_true_eq]
          exact fun hxb => hnd.1 (hxb ▸ hx)
        rw [hz]
        rfl
      · rcases List.mem_cons.mp hm with h | h
        · exact absurd h.symm hba
        · rw [List.filter_cons, if_neg (by simp [hba])]
          exact ih hnd.2 h

theorem countKey_eq_one {k : List Char} {s : List KeyValue}
    (hnd : nodupKeys s) (hm : k ∈ storeKeys s) : countKey k s = 1 :=
  length_filter_eq_one hnd hm

/-- C8: key uniqueness is preserved by every store operation (`set_key`,
`delete_key`, `find_key`, `get_key` each keep the no-duplicate-keys
invariant), and overwriting — `set_key(k,v1,t1)` immediately followed by
`set_key(k,v2,t2)` — leaves exactly one entry for `k`, holding `v2`, with
the store size and the entry's position in insertion order unchanged by the
second set. -/
theorem c8_unique_keys (k v1 v2 : List Char) (t1 t2 now : Int)
    (s : List KeyValue) (hnd : nodupKeys s) (hcap : s.length < 10000) :
    (∀ (j w : List Char) (tl : Int),
      nodupKeys (ProductionRedis.set_key j w tl now s)) ∧
    (∀ j, nodupKeys (ProductionRedis.delete_key now j s).2) ∧
    (∀ j, nodupKeys (ProductionRedis.find_key now j s).2) ∧
    (∀ j, nodupKeys (ProductionRedis.get_key now j s).2) ∧
    (countKey k (ProductionRedis.set_key k v2 t2 now
        (ProductionRedis.set_key k v1 t1 now s)) = 1 ∧
     (firstK k (ProductionRedis.set_key k v2 t2 now
        (ProductionRedis.set_key k v1 t1 now s))).map (·.value) = some v2 ∧
     (ProductionRedis.set_key k v2 t2 now
        (ProductionRedis.set_key k v1 t1 now s)).length =
       (ProductionRedis.set_key k v1 t1 now s).length ∧
     idxK k (ProductionRedis.set_key k v2 t2 now
        (ProductionRedis.set_key k v1 t1 now s)) =
       idxK k (ProductionRedis.set_key k v1 t1 now s)) := by
  have hf1 : firstK k (ProductionRedis.set_key k v1 t1 now s) =
      some ⟨k, v1, if 0 < t1 then now + t1 else 0⟩ :=
    ProductionRedis.firstK_set_key hnd hcap
  have hnd1 : nodupKeys (ProductionRedis.set_key k v1 t1 now s) :=
    ProductionRedis.nodupKeys_set_key hnd
  have hlive : ¬(0 < (KeyValue.mk k v1 (if 0 < t1 then now + t1 else 0)).ttl ∧
      (KeyValue.mk k v1 (if 0 < t1 then now + t1 else 0)).ttl ≤ now) := by
    by_cases ht : 0 < t1
    · rw [show (KeyValue.mk k v1 (if 0 < t1 then now + t1 else 0)).ttl =
          (if 0 < t1 then now + t1 else 0) from rfl, if_pos ht]
      omega
    · rw [show (KeyValue.mk k v1 (if 0 < t1 then now + t1 else 0)).ttl =
          (if 0 < t1 then now + t1 else 0) from rfl, if_neg ht]
      omega
  have hset2 : ProductionRedis.set_key k v2 t2 now
      (ProductionRedis.set_key k v1 t1 now s) =
      replaceK k v2 (if 0 < t2 then now + t2 else 0)
        (ProductionRedis.set_key k v1 t1 now s) :=
    ProductionRedis.set_key_of_first_live hf1 hlive
  refine ⟨fun j w tl => ProductionRedis.nodupKeys_set_key hnd,
    fun j => ProductionRedis.nodupKeys_delete_snd hnd,
    fun j => ProductionRedis.nodupKeys_find_snd hnd,
    fun j => ProductionRedis.nodupKeys_get_snd hnd, ?_, ?_, ?_, ?_⟩
  · rw [hset2, countKey, storeKeys_replaceK, ← countKey]
    exact countKey_eq_one hnd1 (firstK_mem hf1)
  · rw [hset2, firstK_replaceK, hf1]
    rfl
  · rw [hset2, length_replaceK]
  · rw [hset2, idxK_replaceK]

/-- C8 witness: the invariant and the double-overwrite facts at concrete
inputs, on a one-entry store. -/
theorem c8_unique_keys_witness :
    nodupKeys [KeyValue.mk ['z'] ['0'] 0] ∧
    ([KeyValue.mk ['z'] ['0'] 0] : List KeyValue).length < 10000 ∧
    nodupKeys (ProductionRedis.set_key ['k'] ['w'] 0 0 [KeyValue.mk ['z'] ['0'] 0]) ∧
    (countKey ['k'] (ProductionRedis.set_key ['k'] ['B'] 7 0
        (ProductionRedis.set_key ['k'] ['A'] 0 0 [KeyValue.mk ['z'] ['0'] 0])) = 1 ∧
     (firstK ['k'] (ProductionRedis.set_key ['k'] ['B'] 7 0
        (ProductionRedis.set_key ['k'] ['A'] 0 0
          [KeyValue.mk ['z'] ['0'] 0]))).map (·.value) = some ['B'] ∧
     (ProductionRedis.set_key ['k'] ['B'] 7 0
        (ProductionRedis.set_key ['k'] ['A'] 0 0 [KeyValue.mk ['z'] ['0'] 0])).length =
       (ProductionRedis.set_key ['k'] ['A'] 0 0 [KeyValue.mk ['z'] ['0'] 0]).length ∧
     idxK ['k'] (ProductionRedis.set_key ['k'] ['B'] 7 0
        (ProductionRedis.set_key ['k'] ['A'] 0 0 [KeyValue.mk ['z'] ['0'] 0])) =
       idxK ['k'] (ProductionRedis.set_key ['k'] ['A'] 0 0 [KeyValue.mk ['z'] ['0'] 0])) := by
  have h := c8_unique_keys ['k'] ['A'] ['B'] 0 7 0 [KeyValue.mk ['z'] ['0'] 0]
    (by decide) (by decide)
  exact ⟨by decide, by decide, h.1 ['k'] ['w'] 0, h.2.2.2.2⟩

/-- C9 counterexample: `queue_response` does not drop only the excess bytes.
With 8190 bytes already queued (2 bytes of room under the cap's `<
BUFFER_SIZE` test minus the reply), queueing a 3-byte reply appends NOTHING
— the entire reply is discarded — whereas the claim's drop-the-excess
reading would fill the buffer to the cap. -/
theorem c9_counterexample :
    ProductionRedis.queue_response ⟨[], List.replicate 8190 'x'⟩ ("abc".toList) =
      ⟨[], List.replicate 8190 'x'⟩ ∧
    (ProductionRedis.queue_response_claim ⟨[], List.replicate 8190 'x'⟩
        ("abc".toList)).output_buffer.length = 8191 ∧
    ProductionRedis.queue_response ⟨[], List.replicate 8190 'x'⟩ ("abc".toList) ≠
      ProductionRedis.queue_response_claim ⟨[], List.replicate 8190 'x'⟩
        ("abc".toList) := by
  have hlen : (List.replicate 8190 'x').length = 8190 := by
    rw [List.length_replicate]
  have h1 : ProductionRedis.queue_response ⟨[], List.replicate 8190 'x'⟩
      ("abc".toList) = ⟨[], List.replicate 8190 'x'⟩ := by
    rw [ProductionRedis.queue_response,
        if_neg (by rw [show (Client.mk [] (List.replicate 8190 'x')).output_buffer
          = List.replicate 8190 'x' from rfl, hlen]; decide)]
  have habc : ("abc".toList).length = 3 := by decide
  have h2 : (ProductionRedis.queue_response_claim ⟨[], List.replicate 8190 'x'⟩
      ("abc".toList)).output_buffer.length = 8191 := by
    rw [ProductionRedis.queue_response_claim]
    dsimp only
    rw [List.length_append, List.length_take, hlen, habc]
    decide
  refine ⟨h1, h2, ?_⟩
  intro heq
  have hL : (ProductionRedis.queue_response ⟨[], List.replicate 8190 'x'⟩
      ("abc".toList)).output_buffer.length =
      (ProductionRedis.queue_response_claim ⟨[], List.replicate 8190 'x'⟩
        ("abc".toList)).output_buffer.length := by rw [heq]
  rw [h1, h2] at hL
  rw [show (Client.mk [] (List.replicate 8190 'x')).output_buffer =
      List.replicate 8190 'x' from rfl, hlen] at hL
  cases hL

/-- C9 amended: a reply that fits under the `BUFFER_SIZE = 8192` cap is
appended in full; a reply that would not fit is dropped in its entirety —
the output buffer is left exactly as it was (no partial append, no growth,
and the connection state is untouched rather than closed). -/
theorem c9_queue_amended (c : Client) (data : List Char) :
    (c.output_buffer.length + data.length < 8192 →
      ProductionRedis.queue_response c data =
        { c with output_buffer := c.output_buffer ++ data }) ∧
    (8192 ≤ c.output_buffer.length + data.length →
      ProductionRedis.queue_response c data = c) := by
  constructor
  · intro hfit
    rw [ProductionRedis.queue_response, if_pos hfit]
  · intro hover
    rw [ProductionRedis.queue_response, if_neg (by omega)]

/-- C9 amended witness: a fitting reply appends in full; an overflowing
reply on the full buffer of the counterexample is dropped whole. -/
theorem c9_queue_amended_witness :
    (([] : List Char).length + ("ok".toList).length < 8192 ∧
      ProductionRedis.queue_response ⟨[], []⟩ ("ok".toList) = ⟨[], "ok".toList⟩) ∧
    (8192 ≤ (List.replicate 8190 'x').length + ("abc".toList).length ∧
      ProductionRedis.queue_response ⟨[], List.replicate 8190 'x'⟩ ("abc".toList) =
        ⟨[], List.replicate 8190 'x'⟩) := by
  have hlen : (List.replicate 8190 'x').length = 8190 := by
    rw [List.length_replicate]
  constructor
  · exact ⟨by decide, (c9_queue_amended ⟨[], []⟩ ("ok".toList)).1 (by decide)⟩
  · refine ⟨by rw [hlen]; decide, ?_⟩
    exact (c9_queue_amended ⟨[], List.replicate 8190 'x'⟩ ("abc".toList)).2
      (by rw [show (Client.mk [] (List.replicate 8190 'x')).output_buffer =
          List.replicate 8190 'x' from rfl, hlen]; decide)

/-- C10: a frame that is complete and otherwise well formed but contains an
argument whose declared length is 512 or more makes `parse_resp_command`
return the same failure code it returns for an incomplete frame (`-1`,
here `none`).  `handle_client_data` therefore dispatches nothing, queues no
reply, and leaves the buffer untouched — and since this holds for every
continuation `extra` appended to the buffer, the connection's decode loop is
permanently blocked: no later command on it is ever processed. -/
theorem c10_long_arg_blocks (now : Int) (args : List (List Char))
    (s : List KeyValue) (h1 : 0 < args.length) (h2 : args.length ≤ 32)
    (hlong : ∃ a ∈ args, 512 ≤ a.length) :
    ∀ (extra cout : List Char),
      ProductionRedis.parse_resp_command
        (ProductionRedis.encodeCommand args ++ extra) 32 = none ∧
      ProductionRedis.handle_client_data now s
        ⟨ProductionRedis.encodeCommand args ++ extra, cout⟩ =
        (s, ⟨ProductionRedis.encodeCommand args ++ extra, cout⟩) := by
  intro extra cout
  have hp := ProductionRedis.parse_encode_long h1 h2 hlong extra
  exact ⟨hp, ProductionRedis.handle_of_parse_none hp⟩

/-- C10 witness: a single 512-byte argument; even with another complete
`PING` frame appended afterwards, nothing is ever parsed or dispatched. -/
theorem c10_long_arg_blocks_witness :
    0 < ([List.replicate 512 'a'] : List (List Char)).length ∧
    (∃ a ∈ ([List.replicate 512 'a'] : List (List Char)), 512 ≤ a.length) ∧
    ProductionRedis.parse_resp_command
      (ProductionRedis.encodeCommand [List.replicate 512 'a'] ++
        ProductionRedis.encodeCommand ["PING".toList]) 32 = none ∧
    ProductionRedis.handle_client_data 0 []
      ⟨ProductionRedis.encodeCommand [List.replicate 512 'a'] ++
        ProductionRedis.encodeCommand ["PING".toList], []⟩ =
      ([], ⟨ProductionRedis.encodeCommand [List.replicate 512 'a'] ++
        ProductionRedis.encodeCommand ["PING".toList], []⟩) := by
  have hlong : ∃ a ∈ ([List.replicate 512 'a'] : List (List Char)),
      512 ≤ a.length := by
    refine ⟨List.replicate 512 'a', List.mem_singleton.mpr rfl, ?_⟩
    rw [List.length_replicate]
  have h := c10_long_arg_blocks 0 [List.replicate 512 'a'] []
    (by decide) (by decide) hlong
    (ProductionRedis.encodeCommand ["PING".toList]) []
  exact ⟨by decide, hlong, h.1, h.2⟩
